import Mathlib

/-!
Shallow embedding of the core of `lean_inspect` (file `src/lean_inspect/lsp_trace.py`):
the LSP wire framing (`lsp_frame`, `read_msg`), request correlation
(`LspClient.request`), the goal oracle reduction (`goal_key`), the two line
scanners (`scan_line_dense`, `scan_line_adaptive`), the transition-to-occurrence
conversion (`transitions_to_occurrences`) and the per-file driver loop
(`trace_open_file`).

Modelling conventions:
* The goal oracle (the composition of `plain_goal` and `goal_key` at a fixed
  line) is a pure function `Nat → Option String` from column to goal key;
  `none` is Python's `None` ("no goal").  The `memo` dictionary of
  `scan_line_adaptive` is observationally irrelevant for a pure oracle (it
  caches exactly the value the oracle returns) and only reduces the number of
  external queries, so it is not threaded through the embedding.
* Python's `while` loops are embedded with an explicit fuel argument that is
  instantiated generously enough that the fuel never runs out (proved where a
  claim depends on it); this keeps every definition structurally recursive and
  hence evaluable by `decide`.
* `hashlib.sha256(...).hexdigest()[:16]` (`short_hash`) is kept abstract as a
  `digest : String → String` parameter: no claim depends on the internals of
  the digest, only on it being a fixed function of the key text.
* Byte strings and text strings in the framing layer are lists of natural
  numbers (byte values / Unicode code points), so `bytes` and `str` operations
  (`decode("ascii", errors="replace")`, `strip`, `split(":", 1)`, `lower`,
  `int`) become functions on `List Nat`.
-/

namespace LeanInspect

/-- A goal key: the `Optional[str]` produced by `goal_key` — `none` is Python's
`None` (no goal at the position). -/
abbrev GoalKey := Option String

/-! ### Goal oracle reduction (`goal_key`, lines 96–100)

The raw `$/lean/plainGoal` result is `None` or a JSON object; the object is
modelled as an association list from field names to string values (the only
field the code reads, `"rendered"`, holds a string). -/

/-- Embedding of `goal_key` (lsp_trace.py lines 96–100): `None` maps to `None`;
otherwise `goal.get("rendered", "")`, i.e. the value of the `"rendered"` field
when present and the empty string when the field is missing. -/
def goal_key (goal : Option (List (String × String))) : GoalKey :=
  match goal with
  | none => none
  | some g => some ((g.lookup "rendered").getD "")

/-! ### Occurrences (lines 107–121) -/

/-- Embedding of the `Occurrence` dataclass (lines 107–121); `h` is the
truncated content hash. -/
structure Occurrence where
  h : String
  line : Nat
  col_start : Nat
  col_end : Nat
deriving DecidableEq, Repr

/-! ### Dense scanner (`scan_line_dense`, lines 124–145)

The loop `for col in range(0, len(line_text) + 1)` is split into its first
iteration (`col == 0`, which records unconditionally) and the remaining
columns `1 .. n` (`List.range' 1 n`).  The loop body both queries the oracle
and conditionally records a transition; the embedding returns the recorded
transitions together with the list of queried columns. -/

/-- One pass of the dense scanning loop over the remaining columns: returns
(recorded transitions, queried columns).  `prev` is the key recorded or seen at
the previous column. -/
def denseLoop (key : Nat → GoalKey) (prev : GoalKey) : List Nat → List (Nat × GoalKey) × List Nat
  | [] => ([], [])
  | col :: rest =>
    let k := key col
    if k = prev then
      let r := denseLoop key prev rest
      (r.1, col :: r.2)
    else
      let r := denseLoop key k rest
      ((col, k) :: r.1, col :: r.2)

/-- Embedding of `scan_line_dense` (lines 124–145) together with its oracle
query log: the first component is the returned transition list, the second the
columns passed to `plain_goal`, in order. -/
def denseRun (key : Nat → GoalKey) (n : Nat) : List (Nat × GoalKey) × List Nat :=
  let k0 := key 0
  let r := denseLoop key k0 (List.range' 1 n)
  ((0, k0) :: r.1, 0 :: r.2)

/-- The transition list returned by `scan_line_dense` for a line of length `n`
and a column oracle `key`. -/
def scan_line_dense (key : Nat → GoalKey) (n : Nat) : List (Nat × GoalKey) :=
  (denseRun key n).1

/-- The columns at which `scan_line_dense` queries the oracle, in order. -/
def denseQueries (key : Nat → GoalKey) (n : Nat) : List Nat :=
  (denseRun key n).2

/-! ### Adaptive scanner (`scan_line_adaptive`, lines 148–226) -/

/-- The clamped memoized oracle accessor `get` of `scan_line_adaptive`
(lines 166–173): `col = max(0, min(n, col))` then query.  (`max 0` is the
identity on `Nat`.) -/
def adaptGet (key : Nat → GoalKey) (n : Nat) (col : Nat) : GoalKey :=
  key (max 0 (min n col))

/-- The exponential sampling loop (lines 176–180):
`while samples[-1] < n: samples.append(min(n, samples[-1] + step)); step *= 2`,
with `step = 2 ^ i`.  `fuel` bounds the iteration count; since `last` strictly
increases every iteration, `fuel = n` (with `last = 0`) never runs out. -/
def samplesAux (n : Nat) : Nat → Nat → Nat → List Nat
  | 0, _, _ => []
  | fuel + 1, last, i =>
    if last < n then
      let next := min n (last + 2 ^ i)
      next :: samplesAux n fuel next (i + 1)
    else []

/-- The full sample column list (lines 176–183): starts at 0, runs the doubling
loop, and appends `n` if the last sample is not already `n` (for `n ≥ 1` the
loop always ends exactly at `n`, so the append never fires). -/
def samples (n : Nat) : List Nat :=
  let s := 0 :: samplesAux n n 0 0
  if s.getLastD 0 ≠ n then s ++ [n] else s

/-- The boundary binary search (lines 199–207): invariant `key lo = ka`;
narrows `(lo, hi)` until `hi - lo ≤ 1` and returns `hi`.  `fuel` bounds the
iteration count; since `hi - lo` strictly decreases, any `fuel ≥ hi - lo`
never runs out. -/
def bsearch (get : Nat → GoalKey) (ka : GoalKey) : Nat → Nat → Nat → Nat
  | 0, _, hi => hi
  | fuel + 1, lo, hi =>
    if hi - lo > 1 then
      let mid := (lo + hi) / 2
      if get mid = ka then bsearch get ka fuel mid hi
      else bsearch get ka fuel lo mid
    else hi

/-- The boundary-collection loop (lines 191–208): for each adjacent sample pair
whose keys differ, binary-search the change column and record it. -/
def boundariesLoop (get : Nat → GoalKey) (fuel : Nat) : List Nat → List Nat
  | a :: b :: rest =>
    if get a = get b then boundariesLoop get fuel (b :: rest)
    else bsearch get (get a) fuel a b :: boundariesLoop get fuel (b :: rest)
  | _ => []

/-- The transition-emission walk over the sorted boundary columns
(lines 211–218).  `prev` starts as a sentinel distinct from every key
(Python's `object()`), modelled as `none : Option GoalKey`. -/
def walk (get : Nat → GoalKey) (prev : Option GoalKey) : List (Nat) → List (Nat × GoalKey)
  | [] => []
  | col :: rest =>
    let k := get col
    if some k = prev then walk get prev rest
    else (col, k) :: walk get (some k) rest

/-- Embedding of `scan_line_adaptive` (lines 148–226).  `sorted(boundaries)`
(a Python set, then sorted) is embedded as a stable sort followed by `dedup`;
the final block appends a transition at column `n` when the last recorded
transition is not at `n` and the key at `n` differs. -/
def scan_line_adaptive (key : Nat → GoalKey) (n : Nat) : List (Nat × GoalKey) :=
  if n = 0 then [(0, key 0)]
  else
    let get := adaptGet key n
    let s := samples n
    let bl := boundariesLoop get n s
    let transCols := ((0 :: bl).insertionSort (· ≤ ·)).dedup
    let transitions := walk get none transCols
    match transitions.getLast? with
    | none => transitions
    | some (c, k) =>
      if c ≠ n then
        let kEnd := get n
        if kEnd ≠ k then transitions ++ [(n, kEnd)] else transitions
      else transitions

/-! ### Transitions to occurrences (`transitions_to_occurrences`, lines 229–254) -/

/-- Appending the synthetic end transition (lines 242–244): if the last (sorted)
transition is not at `len(line_text)`, append `(len(line_text), last key)`. -/
def endExtend (lineLen : Nat) (ts : List (Nat × GoalKey)) : List (Nat × GoalKey) :=
  if (ts.getLastD (0, none)).1 ≠ lineLen then ts ++ [(lineLen, (ts.getLastD (0, none)).2)]
  else ts

/-- The pair walk of lines 246–252: for each consecutive pair
`(col, k) → (next_col, _)` with `k` non-absent, emit an `Occurrence`. -/
def occLoop (digest : String → String) (line_idx : Nat) : List (Nat × GoalKey) → List Occurrence
  | (col, k) :: (next_col, k2) :: rest =>
    let tail := occLoop digest line_idx ((next_col, k2) :: rest)
    match k with
    | none => tail
    | some s => { h := digest s, line := line_idx, col_start := col, col_end := next_col } :: tail
  | _ => []

/-- Embedding of `transitions_to_occurrences` (lines 229–254).  Python's
`sorted(transitions, key=lambda x: x[0])` is a stable sort by column, embedded
as `insertionSort` on the first components (also stable, hence the same
function). -/
def transitions_to_occurrences (digest : String → String) (line_idx : Nat) (lineLen : Nat)
    (transitions : List (Nat × GoalKey)) : List Occurrence :=
  match transitions with
  | [] => []
  | _ :: _ =>
    let ts := transitions.insertionSort (fun a b => a.1 ≤ b.1)
    occLoop digest line_idx (endExtend lineLen ts)

/-! ### Request correlation (`LspClient.request`, lines 52–63, and `read_msg`
end-of-stream behaviour, lines 22–36)

The server's stdout is modelled at message granularity: a finite list of
already-parsed messages; reaching the end of the list is end-of-stream, where
`read_msg` raises `EOFError("LSP server closed stdout")` (line 27). -/

/-- An incoming JSON-RPC message, reduced to the fields `LspClient.request`
inspects: the optional `id`, the optional `error` payload and the optional
`result` payload (both payloads kept abstract as strings). -/
structure RpcMsg where
  id : Option Nat
  error : Option String
  result : Option String
deriving DecidableEq, Repr

/-- The errors `LspClient.request` can raise: `connectionClosed` models the
`EOFError` raised by `read_msg` at end-of-stream, `protocolError` the
`RuntimeError(resp["error"])` of line 61. -/
inductive LspError where
  | connectionClosed : LspError
  | protocolError : String → LspError
deriving DecidableEq, Repr

/-- Embedding of the response-correlation loop of `LspClient.request`
(lines 57–63) reading from a finite message stream: skip messages whose `id`
is not the request id, fail on an `error` field, return the `result` field,
and fail with `connectionClosed` when the stream ends first. -/
def requestLoop (rid : Nat) : List RpcMsg → Except LspError (Option String)
  | [] => .error .connectionClosed
  | m :: rest =>
    if m.id = some rid then
      match m.error with
      | some e => .error (.protocolError e)
      | none => .ok m.result
    else requestLoop rid rest

/-! ### Wire framing (`lsp_frame`, lines 17–19, and `read_msg`, lines 22–36)

Bytes and decoded text are lists of natural numbers (byte values / code
points).  `ascii s` is the code-point list of a Lean string literal, used for
the concrete header fragments. -/

/-- Code points of a string literal (all literals used are ASCII, so this is
also their byte encoding). -/
def ascii (s : String) : List Nat :=
  s.data.map Char.toNat

/-- Byte-wise `decode("ascii", errors="replace")` (line 28): bytes ≥ 128 decode
to U+FFFD (code point 65533). -/
def asciiDecode (bs : List Nat) : List Nat :=
  bs.map fun b => if b < 128 then b else 65533

/-- Python `str.strip()` whitespace test, on code points. -/
def isPySpace (c : Nat) : Bool :=
  c = 32 || c = 9 || c = 10 || c = 13 || c = 11 || c = 12

/-- Python `str.strip()`: drop whitespace from both ends. -/
def pyStrip (l : List Nat) : List Nat :=
  ((l.dropWhile isPySpace).reverse.dropWhile isPySpace).reverse

/-- Python `str.lower()` restricted to ASCII letters (header keys here are
ASCII; other code points are left unchanged). -/
def pyLower (l : List Nat) : List Nat :=
  l.map fun c => if 65 ≤ c ∧ c ≤ 90 then c + 32 else c

/-- Python `s.split(":", 1)` when it succeeds in unpacking to two parts: split
at the first colon (code 58); `none` when there is no colon (where line 31
raises `ValueError`). -/
def splitColon : List Nat → Option (List Nat × List Nat)
  | [] => none
  | c :: rest =>
    if c = 58 then some ([], rest)
    else (splitColon rest).map fun p => (c :: p.1, p.2)

/-- `StreamReader.readline` (line 25) on a finite byte list: returns the bytes
up to and including the first newline (byte 10) and the remaining bytes; at
end-of-stream the returned line is (a suffix of) the remaining bytes, in
particular `[]` on an empty stream. -/
def readline : List Nat → List Nat × List Nat
  | [] => ([], [])
  | b :: rest =>
    if b = 10 then ([b], rest)
    else
      let r := readline rest
      (b :: r.1, r.2)

/-- Dictionary insertion with last-write-wins lookup semantics, modelling
`headers[k] = v` on a Python dict. -/
def dictInsert (assoc : List (List Nat × List Nat)) (k v : List Nat) : List (List Nat × List Nat) :=
  (k, v) :: assoc.filter fun p => ¬ p.1 = k

/-- Decimal value of a digit code-point list, most significant first. -/
def digitsVal (l : List Nat) : Nat :=
  l.foldl (fun a c => a * 10 + (c - 48)) 0

/-- Does the code point denote an ASCII digit. -/
def isDigitCode (c : Nat) : Bool :=
  48 ≤ c && c ≤ 57

/-- Python `int(s)` on the forms that occur in this protocol: a non-empty
string of ASCII digits; `none` models the `ValueError` on anything else (the
additional forms `int` accepts — signs, underscores, non-ASCII digits — never
arise from a `Content-Length` value and are not modelled). -/
def pyInt : List Nat → Option Nat
  | [] => none
  | l => if l.all isDigitCode then some (digitsVal l) else none

/-- Decimal rendering of a natural number (the `{len(body)}` f-string
interpolation of line 19), most significant digit first; `fuel` bounds the
digit count, and any `fuel > n` is sufficient. -/
def natDecimalAux : Nat → Nat → List Nat
  | 0, _ => []
  | fuel + 1, n =>
    if n < 10 then [48 + n]
    else natDecimalAux fuel (n / 10) ++ [48 + n % 10]

/-- Decimal code points of a natural number. -/
def natDecimal (n : Nat) : List Nat :=
  natDecimalAux (n + 1) n

/-- Embedding of `lsp_frame` (lines 17–19): the serialized payload `enc m`
(Python's `json.dumps(...).encode("utf-8")`) preceded by the ASCII header
`Content-Length: <byte count>\r\n\r\n`. -/
def lsp_frame (enc : α → List Nat) (m : α) : List Nat :=
  ascii "Content-Length: " ++ natDecimal (enc m).length ++ ascii "\x0d\n\x0d\n" ++ enc m

/-- The header-reading loop of `read_msg` (lines 23–32): read a line; `none`
at end-of-stream (`EOFError`); stop at a blank (after strip) line; otherwise
split at the first colon and store `k.strip().lower() ↦ v.strip()`.  `fuel`
bounds the iteration count; each iteration consumes at least one byte of the
stream, so `fuel = bs.length + 1` never runs out. -/
def readHeaders : Nat → List Nat → List (List Nat × List Nat) →
    Option (List (List Nat × List Nat) × List Nat)
  | 0, _, _ => none
  | fuel + 1, bs, acc =>
    let r := readline bs
    if r.1 = [] then none
    else
      let s := pyStrip (asciiDecode r.1)
      if s = [] then some (acc, r.2)
      else
        match splitColon s with
        | none => none
        | some (k, v) =>
          readHeaders fuel r.2 (dictInsert acc (pyLower (pyStrip k)) (pyStrip v))

/-- Embedding of `read_msg` (lines 22–36) parametric in the payload decoder
`dec` (Python's `json.loads` of the UTF-8 body): parse the header block, look
up `content-length`, parse it as an integer, read exactly that many body bytes
and decode them.  Returns the decoded message together with the unconsumed
stream; `none` models the exceptions (`EOFError`, `ValueError`, `KeyError`,
short read, JSON decode error). -/
def read_msg (dec : List Nat → Option α) (bs : List Nat) : Option (α × List Nat) :=
  match readHeaders (bs.length + 1) bs [] with
  | none => none
  | some (headers, rest) =>
    match headers.lookup (ascii "content-length") with
    | none => none
    | some v =>
      match pyInt v with
      | none => none
      | some n =>
        if n ≤ rest.length then
          (dec (rest.take n)).map fun m => (m, rest.drop n)
        else none

/-! ### Per-file driver (`trace_open_file`, lines 295–356)

The oracle is now a function of line and column.  Only the pure bookkeeping of
the function is embedded: the scan mode selection, the start/end clamping, the
per-line scan, and the lazy population of `unique_states` (with the goal-text
fetch at `(ln, oc.col_start)` of lines 338–342 logged in `fetches`). -/

/-- The accumulated result of `trace_open_file`: the `unique_states` table
(association list in insertion order), the occurrence list, and the log of
hashes for which a goal-text fetch (lines 339–340) was issued. -/
structure TraceResult where
  unique_states : List (String × String)
  occurrences : List Occurrence
  fetches : List String
deriving DecidableEq, Repr

/-- The inner loop of lines 337–342: for each occurrence whose hash is not yet
in `unique_states`, fetch the goal at `(ln, oc.col_start)` and, when the key is
non-absent, store its text under the hash. -/
def recordOccs (oracle : Nat → Nat → GoalKey) (ln : Nat) :
    List Occurrence → List (String × String) → List String → List (String × String) × List String
  | [], us, fl => (us, fl)
  | oc :: rest, us, fl =>
    if (us.lookup oc.h).isSome then recordOccs oracle ln rest us fl
    else
      match oracle ln oc.col_start with
      | none => recordOccs oracle ln rest us (fl ++ [oc.h])
      | some s => recordOccs oracle ln rest (us ++ [(oc.h, s)]) (fl ++ [oc.h])

/-- The per-line loop of lines 333–343: scan, convert to occurrences, populate
`unique_states`, extend the occurrence list. -/
def traceLines (oracle : Nat → Nat → GoalKey) (digest : String → String) (adaptive : Bool)
    (lineLens : List Nat) :
    List Nat → List (String × String) → List Occurrence → List String → TraceResult
  | [], us, occs, fl => ⟨us, occs, fl⟩
  | ln :: rest, us, occs, fl =>
    let n := lineLens.getD ln 0
    let transitions :=
      if adaptive then scan_line_adaptive (oracle ln) n else scan_line_dense (oracle ln) n
    let occsLn := transitions_to_occurrences digest ln n transitions
    let r := recordOccs oracle ln occsLn us fl
    traceLines oracle digest adaptive lineLens rest r.1 (occs ++ occsLn) r.2

/-- The clamped effective start line (lines 328, 330):
`max(0, min(len(lines), start_line))` with default 0. -/
def clampedStart (numLines : Nat) (start_line : Option Int) : Int :=
  max 0 (min (numLines : Int) (start_line.getD 0))

/-- The clamped effective end line (lines 329, 331):
`max(start_line, min(len(lines), end_line))` with default `len(lines)`,
where `start_line` is already clamped. -/
def clampedEnd (numLines : Nat) (start_line end_line : Option Int) : Int :=
  max (clampedStart numLines start_line) (min (numLines : Int) (end_line.getD numLines))

/-- The line indices iterated by `for ln in range(start_line, end_line)`
(line 333) after clamping. -/
def scannedIndices (numLines : Nat) (start_line end_line : Option Int) : List Nat :=
  List.range' (clampedStart numLines start_line).toNat
    ((clampedEnd numLines start_line end_line).toNat - (clampedStart numLines start_line).toNat)

/-- Embedding of the pure bookkeeping of `trace_open_file` (lines 295–356):
`mode` is the Python mode string (line 326 selects the adaptive scanner exactly
when it equals `"adaptive"`), `lineLens` the lengths of the file's lines. -/
def trace_open_file (oracle : Nat → Nat → GoalKey) (digest : String → String) (mode : String)
    (lineLens : List Nat) (start_line end_line : Option Int) : TraceResult :=
  traceLines oracle digest (mode = "adaptive") lineLens
    (scannedIndices lineLens.length start_line end_line) [] [] []

/-! ### Statement vocabulary -/

/-- Consecutive pairs of a list (the `transitions[i], transitions[i+1]` walk of
lines 246–248), used to state properties of the segment decomposition. -/
def zipPairs (l : List α) : List (α × α) :=
  l.zip l.tail

/-- The columns `c` with `1 ≤ c ≤ n` at which the oracle's key changes,
`key c ≠ key (c - 1)`; the spec's "breakpoints" of a piecewise-constant
oracle restricted to the scanned columns `0 .. n`. -/
def changeColumns (key : Nat → GoalKey) (n : Nat) : List Nat :=
  (List.range' 1 n).filter fun c => decide (¬ key c = key (c - 1))

/-! ## Helper lemmas: dense scanner -/

theorem denseLoop_log (key : Nat → GoalKey) :
    ∀ (l : List Nat) (prev : GoalKey), (denseLoop key prev l).2 = l
  | [], _ => rfl
  | col :: rest, prev => by
    by_cases h : key col = prev <;>
      simp [denseLoop, h, denseLoop_log key rest]

theorem denseLoop_char (key : Nat → GoalKey) :
    ∀ (m a : Nat),
      (denseLoop key (key a) (List.range' (a + 1) m)).1
        = (List.range' (a + 1) m).filterMap
            (fun c => if key c = key (c - 1) then none else some (c, key c))
  | 0, a => rfl
  | m + 1, a => by
    rw [List.range'_succ]
    by_cases h : key (a + 1) = key a
    · have ih := denseLoop_char key m (a + 1)
      rw [h] at ih
      simp [denseLoop, h, ih, Nat.add_sub_cancel]
    · have ih := denseLoop_char key m (a + 1)
      simp [denseLoop, h, ih, Nat.add_sub_cancel]

theorem denseLoop_mem (key : Nat → GoalKey) :
    ∀ (l : List Nat) (prev : GoalKey), ∀ p ∈ (denseLoop key prev l).1,
      p.1 ∈ l ∧ p.2 = key p.1
  | [], _, p, hp => by simp [denseLoop] at hp
  | col :: rest, prev, p, hp => by
    by_cases h : key col = prev
    · simp only [denseLoop, if_pos h] at hp
      obtain ⟨h1, h2⟩ := denseLoop_mem key rest prev p hp
      exact ⟨List.mem_cons_of_mem _ h1, h2⟩
    · simp only [denseLoop, if_neg h] at hp
      rcases List.mem_cons.1 hp with h1 | h1
      · subst h1; exact ⟨List.mem_cons_self _ _, rfl⟩
      · obtain ⟨h2, h3⟩ := denseLoop_mem key rest (key col) p h1
        exact ⟨List.mem_cons_of_mem _ h2, h3⟩

theorem denseLoop_cols_sublist (key : Nat → GoalKey) :
    ∀ (l : List Nat) (prev : GoalKey), ((denseLoop key prev l).1.map Prod.fst).Sublist l
  | [], _ => by simp [denseLoop]
  | col :: rest, prev => by
    by_cases h : key col = prev
    · simp only [denseLoop, if_pos h]
      exact (denseLoop_cols_sublist key rest prev).cons _
    · simp only [denseLoop, if_neg h, List.map_cons]
      exact (denseLoop_cols_sublist key rest (key col)).cons₂ _

/-! ## C3, C4, C6, C7, C10 -/

/-- C3: `scan_line_dense` queries the oracle at every column from 0 through
`len(line_text)` inclusive — exactly `len(line_text) + 1` queries — and returns
exactly `(0, key 0)` followed by `(col, key col)` for each column
`col ∈ 1..len` where the key differs from the key at `col - 1`. -/
theorem scan_line_dense_spec (key : Nat → GoalKey) (n : Nat) :
    scan_line_dense key n
        = (0, key 0) :: (List.range' 1 n).filterMap
            (fun c => if key c = key (c - 1) then none else some (c, key c))
      ∧ denseQueries key n = List.range (n + 1)
      ∧ (denseQueries key n).length = n + 1 := by
  refine ⟨?_, ?_, ?_⟩
  · show (0, key 0) :: (denseLoop key (key 0) (List.range' 1 n)).1 = _
    rw [denseLoop_char key n 0]
  · show 0 :: (denseLoop key (key 0) (List.range' 1 n)).2 = _
    rw [denseLoop_log, List.range_eq_range', List.range'_succ]
  · show (0 :: (denseLoop key (key 0) (List.range' 1 n)).2).length = n + 1
    rw [denseLoop_log]
    simp

/-- C4: on the empty line both strategies return the single transition
`(0, key 0)`, and converting that transition list to occurrences yields no
occurrence even when the key at column 0 is non-absent. -/
theorem empty_line_spec (key : Nat → GoalKey) (digest : String → String) (i : Nat) :
    scan_line_dense key 0 = [(0, key 0)]
      ∧ scan_line_adaptive key 0 = [(0, key 0)]
      ∧ transitions_to_occurrences digest i 0 (scan_line_dense key 0) = []
      ∧ transitions_to_occurrences digest i 0 (scan_line_adaptive key 0) = [] :=
  ⟨rfl, rfl, rfl, rfl⟩

/-- C6, counterexample: a structured result lacking the `"rendered"` field does
not fail — `goal_key` returns the ordinary key `some ""`, indistinguishable
from a well-formed response whose rendered text is empty.  There is no
malformed-response failure path in `goal_key` at all. -/
theorem goal_key_malformed_no_error :
    goal_key (some []) = some "" ∧ goal_key (some []) = goal_key (some [("rendered", "")]) := by
  constructor <;> rfl

/-- C6, amended: `goal_key` extracts the `"rendered"` field when present,
maps an absent (`None`) result to "no goal", and maps a structured result
lacking the `"rendered"` field to the empty-string key (no error). -/
theorem goal_key_spec :
    goal_key none = none
      ∧ (∀ g s, g.lookup "rendered" = some s → goal_key (some g) = some s)
      ∧ (∀ g, g.lookup "rendered" = none → goal_key (some g) = some "") := by
  refine ⟨rfl, ?_, ?_⟩
  · intro g s h
    simp [goal_key, h]
  · intro g h
    simp [goal_key, h]

/-- Witness for the amended C6 theorem at a concrete well-formed response. -/
theorem goal_key_spec_witness :
    ([("rendered", "x")] : List (String × String)).lookup "rendered" = some "x"
      ∧ goal_key (some [("rendered", "x")]) = some "x" :=
  ⟨by decide, goal_key_spec.2.1 [("rendered", "x")] "x" (by decide)⟩

/-- C7: if the stream ends before any message carrying the request id arrives,
the request loop of `LspClient.request` raises the connection-closed error
(the `EOFError` of `read_msg` at end-of-stream); it does not return a value.
Totality of `requestLoop` over the finite stream is the embedding of "does not
hang". -/
theorem requestLoop_connectionClosed (rid : Nat) (msgs : List RpcMsg)
    (h : ∀ m ∈ msgs, ¬ m.id = some rid) :
    requestLoop rid msgs = .error .connectionClosed := by
  induction msgs with
  | nil => rfl
  | cons m rest ih =>
    have hm : ¬ m.id = some rid := h m (List.mem_cons_self _ _)
    simp only [requestLoop, if_neg hm]
    exact ih fun x hx => h x (List.mem_cons_of_mem _ hx)

/-- Witness for C7: a stream holding one non-matching response and then
end-of-stream. -/
theorem requestLoop_connectionClosed_witness :
    (∀ m ∈ [RpcMsg.mk (some 2) none none], ¬ m.id = some 1)
      ∧ requestLoop 1 [RpcMsg.mk (some 2) none none] = .error .connectionClosed :=
  ⟨by decide, requestLoop_connectionClosed 1 _ (by decide)⟩

/-- C10: `trace_open_file` clamps the requested line range — the effective
start lies in `[0, number of lines]`, the effective end in
`[effective start, number of lines]` — and every line index it iterates over
(and hence every `lines[ln]` access) lies in the clamped half-open range, in
particular strictly below the number of lines. -/
theorem trace_range_clamped (numLines : Nat) (s e : Option Int) :
    0 ≤ clampedStart numLines s
      ∧ clampedStart numLines s ≤ numLines
      ∧ clampedStart numLines s ≤ clampedEnd numLines s e
      ∧ clampedEnd numLines s e ≤ numLines
      ∧ ∀ i ∈ scannedIndices numLines s e,
          (clampedStart numLines s).toNat ≤ i ∧ i < (clampedEnd numLines s e).toNat
            ∧ i < numLines := by
  have h0 : (0 : Int) ≤ clampedStart numLines s := le_max_left _ _
  have h1 : clampedStart numLines s ≤ numLines := by
    apply max_le (Int.natCast_nonneg numLines) (min_le_left _ _)
  have h2 : clampedStart numLines s ≤ clampedEnd numLines s e := le_max_left _ _
  have h3 : clampedEnd numLines s e ≤ numLines := max_le h1 (min_le_left _ _)
  refine ⟨h0, h1, h2, h3, ?_⟩
  intro i hi
  rw [scannedIndices, List.mem_range'_1] at hi
  have h4 : (clampedStart numLines s).toNat ≤ (clampedEnd numLines s e).toNat :=
    Int.toNat_le_toNat h2
  have h5 : (clampedEnd numLines s e).toNat ≤ numLines := Int.toNat_le.2 h3
  omega

/-! ## Helper lemmas: occurrence building -/

theorem zipPairs_cons₂ (x y : α) (l : List α) :
    zipPairs (x :: y :: l) = (x, y) :: zipPairs (y :: l) := rfl

theorem zipPairs_mem {l : List α} {q : α × α} (h : q ∈ zipPairs l) :
    q.1 ∈ l ∧ q.2 ∈ l := by
  obtain ⟨h1, h2⟩ := List.of_mem_zip h
  exact ⟨h1, l.tail_sublist.mem h2⟩

theorem zipPairs_fst_lt {l : List (Nat × GoalKey)}
    (h : l.Pairwise fun a b => a.1 < b.1) :
    ∀ q ∈ zipPairs l, q.1.1 < q.2.1 := by
  induction l with
  | nil => intro q hq; simp [zipPairs] at hq
  | cons x rest ih =>
    cases rest with
    | nil => intro q hq; simp [zipPairs] at hq
    | cons y t =>
      intro q hq
      rw [zipPairs_cons₂] at hq
      rcases List.mem_cons.1 hq with h1 | h1
      · subst h1
        exact (List.pairwise_cons.1 h).1 y (List.mem_cons_self _ _)
      · exact ih (List.pairwise_cons.1 h).2 q h1

theorem pairwise_fst_le_getLast {l : List (Nat × GoalKey)} {q : Nat × GoalKey}
    (h : l.Pairwise fun a b => a.1 < b.1) (hq : l.getLast? = some q) :
    ∀ p ∈ l, p.1 ≤ q.1 := by
  induction l with
  | nil => simp at hq
  | cons x rest ih =>
    intro p hp
    cases rest with
    | nil =>
      simp at hq hp
      simp [hp, hq]
    | cons y t =>
      rw [List.getLast?_cons_cons] at hq
      rcases List.mem_cons.1 hp with h1 | h1
      · subst h1
        have hqmem : q ∈ y :: t := List.mem_of_mem_getLast? (Option.mem_def.2 hq)
        exact le_of_lt ((List.pairwise_cons.1 h).1 q hqmem)
      · exact ih (List.pairwise_cons.1 h).2 hq p h1

theorem zipPairs_cover :
    ∀ (l : List (Nat × GoalKey)), (l.Pairwise fun a b => a.1 < b.1) →
      ∀ (x : Nat) (p q : Nat × GoalKey), l.head? = some p → l.getLast? = some q →
        p.1 ≤ x → x < q.1 → ∃ pr ∈ zipPairs l, pr.1.1 ≤ x ∧ x < pr.2.1
  | [], _, x, p, q, hp, _, _, _ => by simp at hp
  | [a], _, x, p, q, hp, hq, hpx, hxq => by
    simp at hp hq
    subst hp; subst hq
    omega
  | a :: b :: t, h, x, p, q, hp, hq, hpx, hxq => by
    simp only [List.head?_cons, Option.some_inj] at hp
    subst hp
    by_cases hb : x < b.1
    · exact ⟨(a, b), List.mem_cons_self _ _, hpx, hb⟩
    · push_neg at hb
      rw [List.getLast?_cons_cons] at hq
      obtain ⟨pr, hpr, h1, h2⟩ :=
        zipPairs_cover (b :: t) (List.pairwise_cons.1 h).2 x b q rfl hq hb hxq
      exact ⟨pr, by rw [zipPairs_cons₂]; exact List.mem_cons_of_mem _ hpr, h1, h2⟩

theorem occLoop_eq_zipPairs (digest : String → String) (ln : Nat) :
    ∀ l : List (Nat × GoalKey),
      occLoop digest ln l
        = (zipPairs l).filterMap
            (fun q => q.1.2.map fun s => Occurrence.mk (digest s) ln q.1.1 q.2.1)
  | [] => rfl
  | [a] => rfl
  | (col, k) :: (col2, k2) :: t => by
    have ih := occLoop_eq_zipPairs digest ln ((col2, k2) :: t)
    cases k with
    | none => simp [occLoop, zipPairs_cons₂, ih]
    | some s => simp [occLoop, zipPairs_cons₂, ih]

theorem occLoop_start_mem (digest : String → String) (ln : Nat) :
    ∀ (l : List (Nat × GoalKey)), ∀ o ∈ occLoop digest ln l, ∃ p ∈ l, o.col_start = p.1
  | [], o, ho => by simp [occLoop] at ho
  | [a], o, ho => by simp [occLoop] at ho
  | (col, k) :: (col2, k2) :: t, o, ho => by
    have step :
        ∀ o2 ∈ occLoop digest ln ((col2, k2) :: t), ∃ p ∈ (col, k) :: (col2, k2) :: t,
          o2.col_start = p.1 := by
      intro o2 ho2
      obtain ⟨p, hp1, hp2⟩ := occLoop_start_mem digest ln ((col2, k2) :: t) o2 ho2
      exact ⟨p, List.mem_cons_of_mem _ hp1, hp2⟩
    cases k with
    | none =>
      simp only [occLoop] at ho
      exact step o ho
    | some s =>
      simp only [occLoop] at ho
      rcases List.mem_cons.1 ho with h1 | h1
      · subst h1; exact ⟨(col, some s), List.mem_cons_self _ _, rfl⟩
      · exact step o h1

theorem occLoop_pairwise (digest : String → String) (ln : Nat) :
    ∀ (l : List (Nat × GoalKey)), (l.Pairwise fun a b => a.1 ≤ b.1) →
      (occLoop digest ln l).Pairwise fun o o2 => o.col_end ≤ o2.col_start
  | [], _ => by simp [occLoop]
  | [a], _ => by simp [occLoop]
  | (col, k) :: (col2, k2) :: t, h => by
    have htail := occLoop_pairwise digest ln ((col2, k2) :: t) (List.pairwise_cons.1 h).2
    cases k with
    | none => simpa [occLoop] using htail
    | some s =>
      simp only [occLoop]
      refine List.pairwise_cons.2 ⟨?_, htail⟩
      intro o2 ho2
      obtain ⟨p, hp1, hp2⟩ := occLoop_start_mem digest ln ((col2, k2) :: t) o2 ho2
      show col2 ≤ o2.col_start
      rw [hp2]
      rcases List.mem_cons.1 hp1 with h1 | h1
      · rw [h1]
      · exact (List.pairwise_cons.1 (List.pairwise_cons.1 h).2).1 p h1

/-- C2: under the stated preconditions (transitions strictly increasing in
column, starting at column 0, columns bounded by the line length), the
occurrences are exactly those obtained from consecutive pairs of the
end-extended transition list with non-absent key — carrying
`col_start = col`, `col_end = next_col` and `hash = digest key` — they all
satisfy `col_start < col_end`, they are pairwise non-overlapping, and their
ranges together with the absent-key ranges cover exactly `[0, len)`. -/
theorem transitions_to_occurrences_spec (digest : String → String) (ln lineLen : Nat)
    (ts : List (Nat × GoalKey))
    (hsort : ts.Pairwise fun a b => a.1 < b.1)
    (hhead : ∃ k, ts.head? = some (0, k))
    (hle : ∀ p ∈ ts, p.1 ≤ lineLen) :
    transitions_to_occurrences digest ln lineLen ts
        = (zipPairs (endExtend lineLen ts)).filterMap
            (fun q => q.1.2.map fun s => Occurrence.mk (digest s) ln q.1.1 q.2.1)
      ∧ (∀ o ∈ transitions_to_occurrences digest ln lineLen ts, o.col_start < o.col_end)
      ∧ (transitions_to_occurrences digest ln lineLen ts).Pairwise
          (fun o o2 => o.col_end ≤ o2.col_start)
      ∧ ∀ x : Nat, x < lineLen ↔
          ((∃ o ∈ transitions_to_occurrences digest ln lineLen ts,
              o.col_start ≤ x ∧ x < o.col_end)
            ∨ ∃ q ∈ zipPairs (endExtend lineLen ts),
                q.1.2 = none ∧ q.1.1 ≤ x ∧ x < q.2.1) := by
  obtain ⟨k0, hk0⟩ := hhead
  obtain ⟨p0, rest, rfl⟩ : ∃ p0 rest, ts = p0 :: rest := by
    cases ts with
    | nil => simp at hk0
    | cons a t => exact ⟨a, t, rfl⟩
  have hp0 : p0 = (0, k0) := by simpa using hk0
  subst hp0
  -- the stable sort leaves a sorted list unchanged
  have hsorted : ((0, k0) :: rest).insertionSort (fun a b => a.1 ≤ b.1) = (0, k0) :: rest :=
    List.Sorted.insertionSort_eq (hsort.imp le_of_lt)
  have heq : transitions_to_occurrences digest ln lineLen ((0, k0) :: rest)
      = occLoop digest ln (endExtend lineLen ((0, k0) :: rest)) := by
    simp only [transitions_to_occurrences, hsorted]
  -- structure of the end-extended list
  obtain ⟨qlast, hqlast⟩ : ∃ q, ((0, k0) :: rest).getLast? = some q := by
    cases h : ((0, k0) :: rest).getLast? with
    | none => simp [List.getLast?_eq_none_iff] at h
    | some q => exact ⟨q, rfl⟩
  have hqmem : qlast ∈ (0, k0) :: rest := List.mem_of_mem_getLast? (Option.mem_def.2 hqlast)
  have hqle : qlast.1 ≤ lineLen := hle qlast hqmem
  have hlastD : (((0, k0) :: rest).getLastD (0, none)) = qlast := by
    rw [List.getLastD_eq_getLast?, hqlast]; rfl
  have hmax : ∀ p ∈ (0, k0) :: rest, p.1 ≤ qlast.1 :=
    pairwise_fst_le_getLast hsort hqlast
  have hPfacts :
      (endExtend lineLen ((0, k0) :: rest)).Pairwise (fun a b => a.1 < b.1)
        ∧ (endExtend lineLen ((0, k0) :: rest)).head? = some (0, k0)
        ∧ (∃ kq, (endExtend lineLen ((0, k0) :: rest)).getLast? = some (lineLen, kq))
        ∧ (∀ p ∈ endExtend lineLen ((0, k0) :: rest), p.1 ≤ lineLen) := by
    rw [endExtend, hlastD]
    by_cases hq : qlast.1 = lineLen
    · simp only [hq, ne_eq, not_true_eq_false, if_false]
      refine ⟨hsort, rfl, ⟨qlast.2, ?_⟩, hle⟩
      rw [hqlast, ← hq]
    · simp only [ne_eq, hq, not_false_eq_true, if_true]
      have hlt : ∀ p ∈ (0, k0) :: rest, p.1 < lineLen := by
        intro p hp
        have := hmax p hp
        omega
      refine ⟨?_, ?_, ⟨qlast.2, ?_⟩, ?_⟩
      · rw [List.pairwise_append]
        refine ⟨hsort, List.pairwise_singleton _ _, ?_⟩
        intro a ha b hb
        simp only [List.mem_singleton] at hb
        subst hb
        exact hlt a ha
      · rfl
      · rw [List.getLast?_concat]
      · intro p hp
        rcases List.mem_append.1 hp with h1 | h1
        · exact hle p h1
        · simp only [List.mem_singleton] at h1
          subst h1; exact le_refl _
  obtain ⟨hPsort, hPhead, ⟨kq, hPlast⟩, hPle⟩ := hPfacts
  have hocc := occLoop_eq_zipPairs digest ln (endExtend lineLen ((0, k0) :: rest))
  refine ⟨heq.trans hocc, ?_, ?_, ?_⟩
  · -- col_start < col_end
    intro o ho
    rw [heq, hocc] at ho
    obtain ⟨q, hq, hfq⟩ := List.mem_filterMap.1 ho
    have hlt := zipPairs_fst_lt hPsort q hq
    cases hk : q.1.2 with
    | none => rw [hk] at hfq; simp at hfq
    | some s =>
      rw [hk] at hfq
      simp only [Option.map_some', Option.some_inj] at hfq
      rw [← hfq]
      exact hlt
  · -- pairwise non-overlap
    rw [heq]
    exact occLoop_pairwise digest ln _ (hPsort.imp le_of_lt)
  · -- exact coverage
    intro x
    constructor
    · intro hx
      obtain ⟨pr, hpr, h1, h2⟩ :=
        zipPairs_cover _ hPsort x (0, k0) (lineLen, kq) hPhead hPlast (Nat.zero_le x) hx
      cases hk : pr.1.2 with
      | none => exact Or.inr ⟨pr, hpr, hk, h1, h2⟩
      | some s =>
        refine Or.inl ⟨Occurrence.mk (digest s) ln pr.1.1 pr.2.1, ?_, h1, h2⟩
        rw [heq, hocc]
        exact List.mem_filterMap.2 ⟨pr, hpr, by rw [hk]; rfl⟩
    · intro hx
      rcases hx with ⟨o, ho, h1, h2⟩ | ⟨q, hq, _, h1, h2⟩
      · rw [heq, hocc] at ho
        obtain ⟨q, hq, hfq⟩ := List.mem_filterMap.1 ho
        cases hk : q.1.2 with
        | none => rw [hk] at hfq; simp at hfq
        | some s =>
          rw [hk] at hfq
          simp only [Option.map_some', Option.some_inj] at hfq
          have hqP : q.2 ∈ endExtend lineLen ((0, k0) :: rest) := (zipPairs_mem hq).2
          have := hPle q.2 hqP
          rw [← hfq] at h2
          simp only at h2
          omega
      · have hqP : q.2 ∈ endExtend lineLen ((0, k0) :: rest) := (zipPairs_mem hq).2
        have := hPle q.2 hqP
        omega

/-- Witness for C2 at a concrete sorted transition list with one absent-key
gap. -/
theorem transitions_to_occurrences_spec_witness :
    (([(0, some "a"), (2, none), (3, some "b")] : List (Nat × GoalKey)).Pairwise
        fun a b => a.1 < b.1)
      ∧ (∃ k, ([(0, some "a"), (2, none), (3, some "b")] : List (Nat × GoalKey)).head?
          = some (0, k))
      ∧ (∀ p ∈ ([(0, some "a"), (2, none), (3, some "b")] : List (Nat × GoalKey)), p.1 ≤ 5)
      ∧ (∀ o ∈ transitions_to_occurrences id 0 5 [(0, some "a"), (2, none), (3, some "b")],
          o.col_start < o.col_end) := by
  refine ⟨by decide, ⟨some "a", by decide⟩, by decide, ?_⟩
  exact (transitions_to_occurrences_spec id 0 5 _ (by decide) ⟨some "a", by decide⟩
    (by decide)).2.1

/-! ## Helper lemmas: adaptive scanner -/

theorem samplesAux_stop (n last i : Nat) (h : ¬ last < n) :
    ∀ fuel, samplesAux n fuel last i = []
  | 0 => rfl
  | fuel + 1 => by simp [samplesAux, h]

theorem samplesAux_chain (n : Nat) :
    ∀ (fuel last i : Nat), List.Chain' (· < ·) (last :: samplesAux n fuel last i)
  | 0, last, i => List.chain'_singleton last
  | fuel + 1, last, i => by
    by_cases h : last < n
    · simp only [samplesAux, if_pos h]
      refine List.chain'_cons.2 ⟨?_, samplesAux_chain n fuel _ (i + 1)⟩
      exact lt_min h (by have := Nat.two_pow_pos i; omega)
    · simp only [samplesAux, if_neg h]
      exact List.chain'_singleton last

theorem samplesAux_le (n : Nat) :
    ∀ (fuel last i : Nat), ∀ x ∈ samplesAux n fuel last i, x ≤ n
  | 0, last, i => by simp [samplesAux]
  | fuel + 1, last, i => by
    by_cases h : last < n
    · simp only [samplesAux, if_pos h]
      intro x hx
      rcases List.mem_cons.1 hx with h1 | h1
      · subst h1; exact min_le_left _ _
      · exact samplesAux_le n fuel _ (i + 1) x h1
    · simp [samplesAux, h]

theorem samplesAux_getLast (n : Nat) :
    ∀ (fuel last i : Nat), last < n → n - last ≤ fuel →
      (samplesAux n fuel last i).getLast? = some n
  | 0, last, i, h1, h2 => by omega
  | fuel + 1, last, i, h1, h2 => by
    simp only [samplesAux, if_pos h1]
    have hpos := Nat.two_pow_pos i
    by_cases hn : min n (last + 2 ^ i) = n
    · rw [hn, samplesAux_stop n n (i + 1) (lt_irrefl n)]
      rfl
    · have hlt : min n (last + 2 ^ i) < n := lt_of_le_of_ne (min_le_left _ _) hn
      have hge : last + 1 ≤ min n (last + 2 ^ i) := le_min h1 (by omega)
      have ih := samplesAux_getLast n fuel (min n (last + 2 ^ i)) (i + 1) hlt (by omega)
      cases hr : samplesAux n fuel (min n (last + 2 ^ i)) (i + 1) with
      | nil => rw [hr] at ih; simp at ih
      | cons r t =>
        rw [hr] at ih
        rw [List.getLast?_cons_cons, ih]

theorem samples_spec (n : Nat) (hn : n ≠ 0) :
    samples n = 0 :: samplesAux n n 0 0
      ∧ List.Chain' (· < ·) (samples n)
      ∧ (∀ x ∈ samples n, x ≤ n)
      ∧ (samples n).getLast? = some n := by
  have hlast : (samplesAux n n 0 0).getLast? = some n :=
    samplesAux_getLast n n 0 0 (by omega) (by omega)
  have hcons : (0 :: samplesAux n n 0 0).getLast? = some n := by
    cases hr : samplesAux n n 0 0 with
    | nil => rw [hr] at hlast; simp at hlast
    | cons r t => rw [hr] at hlast; rw [List.getLast?_cons_cons, hlast]
  have heq : samples n = 0 :: samplesAux n n 0 0 := by
    simp only [samples, List.getLastD_eq_getLast?, hcons, Option.getD_some, ne_eq,
      not_true_eq_false, if_false]
  refine ⟨heq, ?_, ?_, ?_⟩
  · rw [heq]; exact samplesAux_chain n n 0 0
  · rw [heq]
    intro x hx
    rcases List.mem_cons.1 hx with h1 | h1
    · subst h1; exact Nat.zero_le n
    · exact samplesAux_le n n 0 0 x h1
  · rw [heq]; exact hcons

theorem bsearch_le (get : Nat → GoalKey) (ka : GoalKey) :
    ∀ (fuel lo hi : Nat), lo ≤ hi → bsearch get ka fuel lo hi ≤ hi
  | 0, lo, hi, _ => le_refl hi
  | fuel + 1, lo, hi, h => by
    by_cases hgt : hi - lo > 1
    · simp only [bsearch, if_pos hgt]
      by_cases hm : get ((lo + hi) / 2) = ka
      · simp only [if_pos hm]
        exact bsearch_le get ka fuel _ hi (by omega)
      · simp only [if_neg hm]
        exact le_trans (bsearch_le get ka fuel lo _ (by omega)) (by omega)
    · simp [bsearch, hgt]

theorem boundariesLoop_le (get : Nat → GoalKey) (n : Nat) :
    ∀ (l : List Nat) (fuel : Nat), List.Chain' (· < ·) l → (∀ x ∈ l, x ≤ n) →
      ∀ x ∈ boundariesLoop get fuel l, x ≤ n
  | [], fuel, _, _ => by simp [boundariesLoop]
  | [a], fuel, _, _ => by simp [boundariesLoop]
  | a :: b :: t, fuel, hchain, hle => by
    intro x hx
    have hab : a < b := (List.chain'_cons.1 hchain).1
    have htail : ∀ x ∈ boundariesLoop get fuel (b :: t), x ≤ n :=
      boundariesLoop_le get n (b :: t) fuel (List.chain'_cons.1 hchain).2
        fun y hy => hle y (List.mem_cons_of_mem _ hy)
    by_cases hk : get a = get b
    · rw [boundariesLoop, if_pos hk] at hx
      exact htail x hx
    · rw [boundariesLoop, if_neg hk] at hx
      rcases List.mem_cons.1 hx with h1 | h1
      · subst h1
        exact le_trans (bsearch_le get (get a) fuel a b (le_of_lt hab))
          (hle b (List.mem_cons_of_mem _ (List.mem_cons_self _ _)))
      · exact htail x h1

theorem transCols_facts (bl : List Nat) (n : Nat) (hbl : ∀ x ∈ bl, x ≤ n) :
    (((0 :: bl).insertionSort (· ≤ ·)).dedup).Pairwise (· < ·)
      ∧ (∃ t, ((0 :: bl).insertionSort (· ≤ ·)).dedup = 0 :: t)
      ∧ ∀ x ∈ ((0 :: bl).insertionSort (· ≤ ·)).dedup, x ≤ n := by
  have hsorted : ((0 :: bl).insertionSort (· ≤ ·)).Pairwise (· ≤ ·) :=
    List.sorted_insertionSort _ _
  have hdle : (((0 :: bl).insertionSort (· ≤ ·)).dedup).Pairwise (· ≤ ·) :=
    hsorted.sublist (List.dedup_sublist _)
  have hnd : (((0 :: bl).insertionSort (· ≤ ·)).dedup).Nodup := List.nodup_dedup _
  have hpw : (((0 :: bl).insertionSort (· ≤ ·)).dedup).Pairwise (· < ·) :=
    (hdle.and hnd).imp fun h => lt_of_le_of_ne h.1 h.2
  have hmem0 : 0 ∈ ((0 :: bl).insertionSort (· ≤ ·)).dedup :=
    List.mem_dedup.2 ((List.mem_insertionSort _).2 (List.mem_cons_self _ _))
  have hle : ∀ x ∈ ((0 :: bl).insertionSort (· ≤ ·)).dedup, x ≤ n := by
    intro x hx
    have : x ∈ 0 :: bl := (List.mem_insertionSort _).1 (List.mem_dedup.1 hx)
    rcases List.mem_cons.1 this with h1 | h1
    · subst h1; exact Nat.zero_le n
    · exact hbl x h1
  refine ⟨hpw, ?_, hle⟩
  cases hd : ((0 :: bl).insertionSort (· ≤ ·)).dedup with
  | nil => rw [hd] at hmem0; simp at hmem0
  | cons h t =>
    rw [hd] at hmem0 hpw
    rcases List.mem_cons.1 hmem0 with h1 | h1
    · exact ⟨t, by rw [← h1]⟩
    · have := (List.pairwise_cons.1 hpw).1 0 h1
      omega

theorem walk_mem (get : Nat → GoalKey) :
    ∀ (l : List Nat) (prev : Option GoalKey), ∀ p ∈ walk get prev l,
      p.1 ∈ l ∧ p.2 = get p.1
  | [], _, p, hp => by simp [walk] at hp
  | col :: rest, prev, p, hp => by
    by_cases h : some (get col) = prev
    · rw [walk, if_pos h] at hp
      obtain ⟨h1, h2⟩ := walk_mem get rest prev p hp
      exact ⟨List.mem_cons_of_mem _ h1, h2⟩
    · rw [walk, if_neg h] at hp
      rcases List.mem_cons.1 hp with h1 | h1
      · subst h1; exact ⟨List.mem_cons_self _ _, rfl⟩
      · obtain ⟨h1, h2⟩ := walk_mem get rest _ p h1
        exact ⟨List.mem_cons_of_mem _ h1, h2⟩

theorem walk_cols_sublist (get : Nat → GoalKey) :
    ∀ (l : List Nat) (prev : Option GoalKey), ((walk get prev l).map Prod.fst).Sublist l
  | [], _ => by simp [walk]
  | col :: rest, prev => by
    by_cases h : some (get col) = prev
    · rw [walk, if_pos h]
      exact (walk_cols_sublist get rest prev).cons _
    · rw [walk, if_neg h, List.map_cons]
      exact (walk_cols_sublist get rest _).cons₂ _

theorem walk_cons_start (get : Nat → GoalKey) (c : Nat) (rest : List Nat) :
    walk get none (c :: rest) = (c, get c) :: walk get (some (get c)) rest := by
  rw [walk, if_neg (by simp)]

/-- Structural description of `scan_line_adaptive` for a non-empty line: the
result is a transition list `w` whose entries all carry the oracle's key at
their column, starting at column 0, strictly increasing — possibly extended
by the final transition `(n, key n)` when the key at the line end differs. -/
theorem adaptive_cases (key : Nat → GoalKey) (n : Nat) (hn : ¬ n = 0) :
    ∃ w : List (Nat × GoalKey),
      w.head? = some (0, key 0)
        ∧ w.Pairwise (fun a b => a.1 < b.1)
        ∧ (∀ p ∈ w, p.1 ≤ n ∧ p.2 = key p.1)
        ∧ (scan_line_adaptive key n = w
            ∨ (scan_line_adaptive key n = w ++ [(n, key n)] ∧ ∀ p ∈ w, p.1 < n)) := by
  obtain ⟨hseq, hschain, hsle, hslast⟩ := samples_spec n hn
  have hbl : ∀ x ∈ boundariesLoop (adaptGet key n) n (samples n), x ≤ n :=
    boundariesLoop_le _ n (samples n) n hschain hsle
  obtain ⟨hpw, ⟨t, htc⟩, hle⟩ := transCols_facts _ n hbl
  have hget0 : adaptGet key n 0 = key 0 := by simp [adaptGet]
  have hgetn : adaptGet key n n = key n := by simp [adaptGet]
  set get := adaptGet key n with hget
  set tc := ((0 :: boundariesLoop get n (samples n)).insertionSort (· ≤ ·)).dedup with htcdef
  set w := walk get none tc with hw
  have hwhead : w.head? = some (0, key 0) := by
    rw [hw, htc, walk_cons_start, hget0]
    rfl
  have hwmem : ∀ p ∈ w, p.1 ≤ n ∧ p.2 = key p.1 := by
    intro p hp
    obtain ⟨h1, h2⟩ := walk_mem get tc none p hp
    have hpn : p.1 ≤ n := hle p.1 h1
    refine ⟨hpn, ?_⟩
    rw [h2, hget]
    simp [adaptGet, min_eq_right hpn]
  have hwcols : (w.map Prod.fst).Pairwise (· < ·) :=
    hpw.sublist (walk_cols_sublist get tc none)
  have hwpairs : w.Pairwise fun a b => a.1 < b.1 := List.pairwise_map.1 hwcols
  obtain ⟨q, hq⟩ : ∃ q, w.getLast? = some q := by
    cases hr : w.getLast? with
    | none =>
      rw [List.getLast?_eq_none_iff] at hr
      rw [hr] at hwhead
      simp at hwhead
    | some q => exact ⟨q, rfl⟩
  have hqmem : q ∈ w := List.mem_of_mem_getLast? (Option.mem_def.2 hq)
  have hqle : q.1 ≤ n := (hwmem q hqmem).1
  have hwle : ∀ p ∈ w, p.1 ≤ q.1 := pairwise_fst_le_getLast hwpairs hq
  have hdef : scan_line_adaptive key n
      = match w.getLast? with
        | none => w
        | some (c, k) =>
          if c ≠ n then if get n ≠ k then w ++ [(n, get n)] else w
          else w := by
    simp only [scan_line_adaptive, if_neg hn]
  rw [hq] at hdef
  obtain ⟨c, k⟩ := q
  refine ⟨w, hwhead, hwpairs, hwmem, ?_⟩
  by_cases hc : c = n
  · left
    rw [hdef]
    simp [hc]
  · by_cases hk : get n = k
    · left
      rw [hdef]
      simp [hc, hk]
    · right
      have hk2 : ¬ key n = k := by rw [← hgetn]; exact hk
      constructor
      · rw [hdef]
        simp [hc, hk2, hgetn]
      · intro p hp
        have h1 := hwle p hp
        simp only at h1
        have h2 : c ≤ n := hqle
        omega

/-- C5: for every oracle and line length, the transition lists returned by both
strategies are strictly increasing in column and begin with a transition at
column 0 (carrying the oracle's key there). -/
theorem scan_transitions_sorted (key : Nat → GoalKey) (n : Nat) :
    ((scan_line_dense key n).map Prod.fst).Pairwise (· < ·)
      ∧ (scan_line_dense key n).head? = some (0, key 0)
      ∧ ((scan_line_adaptive key n).map Prod.fst).Pairwise (· < ·)
      ∧ (scan_line_adaptive key n).head? = some (0, key 0) := by
  refine ⟨?_, rfl, ?_, ?_⟩
  · show ((0, key 0) :: (denseLoop key (key 0) (List.range' 1 n)).1).map Prod.fst
      |>.Pairwise (· < ·)
    rw [List.map_cons]
    refine List.pairwise_cons.2 ⟨?_, ?_⟩
    · intro x hx
      have hsub := denseLoop_cols_sublist key (List.range' 1 n) (key 0)
      have : x ∈ List.range' 1 n := hsub.mem hx
      rw [List.mem_range'_1] at this
      omega
    · exact (List.pairwise_lt_range' 1 n).sublist
        (denseLoop_cols_sublist key (List.range' 1 n) (key 0))
  · by_cases hn : n = 0
    · subst hn
      show ([(0, key 0)].map Prod.fst).Pairwise (· < ·)
      simp
    · obtain ⟨w, hwhead, hwpairs, _, hcase⟩ := adaptive_cases key n hn
      rcases hcase with h | ⟨h, hlt⟩
      · rw [h]; exact List.pairwise_map.2 hwpairs
      · rw [h, List.map_append]
        rw [List.pairwise_append]
        refine ⟨List.pairwise_map.2 hwpairs, List.pairwise_singleton _ _, ?_⟩
        intro a ha b hb
        simp only [List.map_cons, List.map_nil, List.mem_singleton] at hb
        subst hb
        obtain ⟨p, hp, rfl⟩ := List.mem_map.1 ha
        exact hlt p hp
  · by_cases hn : n = 0
    · subst hn; rfl
    · obtain ⟨w, hwhead, _, _, hcase⟩ := adaptive_cases key n hn
      obtain ⟨p0, w', rfl⟩ : ∃ p0 w', w = p0 :: w' := by
        cases w with
        | nil => simp at hwhead
        | cons a t => exact ⟨a, t, rfl⟩
      have hp0 : p0 = (0, key 0) := by simpa using hwhead
      subst hp0
      rcases hcase with h | ⟨h, _⟩
      · rw [h]; rfl
      · rw [h, List.cons_append]; rfl

/-! ## Helper lemmas: trace driver (C8) -/

theorem scan_line_dense_consistent (key : Nat → GoalKey) (n : Nat) :
    ∀ p ∈ scan_line_dense key n, p.1 ≤ n ∧ p.2 = key p.1 := by
  intro p hp
  have hp2 : p ∈ (0, key 0) :: (denseLoop key (key 0) (List.range' 1 n)).1 := hp
  rcases List.mem_cons.1 hp2 with h1 | h1
  · subst h1; exact ⟨Nat.zero_le n, rfl⟩
  · obtain ⟨h2, h3⟩ := denseLoop_mem key (List.range' 1 n) (key 0) p h1
    rw [List.mem_range'_1] at h2
    exact ⟨by omega, h3⟩

theorem scan_line_adaptive_consistent (key : Nat → GoalKey) (n : Nat) :
    ∀ p ∈ scan_line_adaptive key n, p.1 ≤ n ∧ p.2 = key p.1 := by
  by_cases hn : n = 0
  · subst hn
    intro p hp
    rcases List.mem_singleton.1 hp with rfl
    exact ⟨le_refl 0, rfl⟩
  · intro p hp
    obtain ⟨w, _, _, hwmem, hcase⟩ := adaptive_cases key n hn
    rcases hcase with h | ⟨h, _⟩
    · rw [h] at hp; exact hwmem p hp
    · rw [h] at hp
      rcases List.mem_append.1 hp with h1 | h1
      · exact hwmem p h1
      · rcases List.mem_singleton.1 h1 with rfl
        exact ⟨le_refl n, rfl⟩

theorem occLoop_source (digest : String → String) (ln : Nat) :
    ∀ (l : List (Nat × GoalKey)), ∀ o ∈ occLoop digest ln l,
      o.line = ln ∧ ∃ s, (o.col_start, some s) ∈ l.dropLast ∧ o.h = digest s
  | [], o, ho => by simp [occLoop] at ho
  | [a], o, ho => by simp [occLoop] at ho
  | (col, k) :: (col2, k2) :: t, o, ho => by
    have hdrop : ((col, k) :: (col2, k2) :: t).dropLast
        = (col, k) :: ((col2, k2) :: t).dropLast :=
      List.dropLast_cons_of_ne_nil (List.cons_ne_nil _ _)
    have step : o ∈ occLoop digest ln ((col2, k2) :: t) →
        o.line = ln ∧ ∃ s, (o.col_start, some s) ∈ ((col, k) :: (col2, k2) :: t).dropLast
          ∧ o.h = digest s := by
      intro h1
      obtain ⟨hl, s, hs1, hs2⟩ := occLoop_source digest ln ((col2, k2) :: t) o h1
      exact ⟨hl, s, by rw [hdrop]; exact List.mem_cons_of_mem _ hs1, hs2⟩
    cases k with
    | none =>
      simp only [occLoop] at ho
      exact step ho
    | some s =>
      simp only [occLoop] at ho
      rcases List.mem_cons.1 ho with h1 | h1
      · subst h1
        exact ⟨rfl, s, by rw [hdrop]; exact List.mem_cons_self _ _, rfl⟩
      · exact step h1

theorem transitions_to_occurrences_source (digest : String → String) (ln lineLen : Nat)
    (ts : List (Nat × GoalKey)) :
    ∀ o ∈ transitions_to_occurrences digest ln lineLen ts,
      o.line = ln ∧ ∃ s, (o.col_start, some s) ∈ ts ∧ o.h = digest s := by
  intro o ho
  cases ts with
  | nil => simp [transitions_to_occurrences, occLoop] at ho
  | cons a rest =>
    have ho2 : o ∈ occLoop digest ln
        (endExtend lineLen ((a :: rest).insertionSort fun p q => p.1 ≤ q.1)) := ho
    obtain ⟨hl, s, hs1, hs2⟩ := occLoop_source digest ln _ o ho2
    refine ⟨hl, s, ?_, hs2⟩
    have hmem : (o.col_start, some s)
        ∈ (a :: rest).insertionSort fun p q => p.1 ≤ q.1 := by
      rw [endExtend] at hs1
      by_cases hcond :
          ¬ (((a :: rest).insertionSort fun p q => p.1 ≤ q.1).getLastD (0, none)).1 = lineLen
      · rw [if_pos hcond, List.dropLast_concat] at hs1
        exact hs1
      · rw [if_neg hcond] at hs1
        exact (List.dropLast_sublist _).mem hs1
    exact (List.mem_insertionSort _).1 hmem

theorem lookup_append_isSome (l1 l2 : List (String × String)) (a : String) :
    (((l1 ++ l2).lookup a).isSome) ↔ ((l1.lookup a).isSome ∨ (l2.lookup a).isSome) := by
  induction l1 with
  | nil => simp
  | cons p t ih =>
    obtain ⟨k, v⟩ := p
    by_cases h : a = k
    · subst h
      simp [List.lookup]
    · have hbeq : (a == k) = false := beq_false_of_ne h
      simp [List.lookup, hbeq, ih]

theorem lookup_singleton_isSome (k v a : String) :
    ((([(k, v)] : List (String × String)).lookup a).isSome) ↔ a = k := by
  by_cases h : a = k
  · subst h; simp [List.lookup]
  · have hbeq : (a == k) = false := beq_false_of_ne h
    simp [List.lookup, hbeq, h]

theorem recordOccs_spec (oracle : Nat → Nat → GoalKey) (digest : String → String) (ln : Nat) :
    ∀ (occs : List Occurrence) (us : List (String × String)) (fl : List String),
      (∀ oc ∈ occs, ∃ s, oracle ln oc.col_start = some s ∧ oc.h = digest s) →
      fl.Nodup → (∀ h2, h2 ∈ fl ↔ (us.lookup h2).isSome) →
      (recordOccs oracle ln occs us fl).2.Nodup
        ∧ (∀ h2, h2 ∈ (recordOccs oracle ln occs us fl).2
            ↔ (((recordOccs oracle ln occs us fl).1).lookup h2).isSome)
        ∧ (∀ h2, (us.lookup h2).isSome
            → (((recordOccs oracle ln occs us fl).1).lookup h2).isSome)
        ∧ (∀ oc ∈ occs, (((recordOccs oracle ln occs us fl).1).lookup oc.h).isSome)
        ∧ (∀ h2 ∈ (recordOccs oracle ln occs us fl).2, h2 ∈ fl ∨ ∃ oc ∈ occs, oc.h = h2)
  | [], us, fl, _, hnd, hiff => by
    refine ⟨hnd, fun h2 => hiff h2, fun h2 h => h, by simp, fun h2 h => Or.inl h⟩
  | oc :: rest, us, fl, hgood, hnd, hiff => by
    by_cases hmem : ((us.lookup oc.h).isSome : Prop)
    · have heq : recordOccs oracle ln (oc :: rest) us fl = recordOccs oracle ln rest us fl := by
        simp [recordOccs, hmem]
      obtain ⟨c1, c2, c3, c4, c5⟩ := recordOccs_spec oracle digest ln rest us fl
        (fun o ho => hgood o (List.mem_cons_of_mem _ ho)) hnd hiff
      rw [heq]
      refine ⟨c1, c2, c3, ?_, ?_⟩
      · intro o ho
        rcases List.mem_cons.1 ho with h1 | h1
        · subst h1; exact c3 _ hmem
        · exact c4 o h1
      · intro h2 h
        rcases c5 h2 h with h1 | ⟨o, ho, h3⟩
        · exact Or.inl h1
        · exact Or.inr ⟨o, List.mem_cons_of_mem _ ho, h3⟩
    · obtain ⟨s, hs, hh⟩ := hgood oc (List.mem_cons_self _ _)
      have heq : recordOccs oracle ln (oc :: rest) us fl
          = recordOccs oracle ln rest (us ++ [(oc.h, s)]) (fl ++ [oc.h]) := by
        simp [recordOccs, hmem, hs]
      have hnotfl : oc.h ∉ fl := fun h => hmem ((hiff oc.h).1 h)
      have hnd2 : (fl ++ [oc.h]).Nodup := by
        rw [List.nodup_append]
        refine ⟨hnd, List.nodup_singleton _, ?_⟩
        intro a ha hb
        rw [List.mem_singleton] at hb
        subst hb
        exact hnotfl ha
      have hiff2 : ∀ h2, h2 ∈ fl ++ [oc.h] ↔ (((us ++ [(oc.h, s)]).lookup h2).isSome) := by
        intro h2
        rw [List.mem_append, List.mem_singleton, lookup_append_isSome,
          lookup_singleton_isSome]
        exact or_congr (hiff h2) Iff.rfl
      obtain ⟨c1, c2, c3, c4, c5⟩ := recordOccs_spec oracle digest ln rest
        (us ++ [(oc.h, s)]) (fl ++ [oc.h])
        (fun o ho => hgood o (List.mem_cons_of_mem _ ho)) hnd2 hiff2
      rw [heq]
      refine ⟨c1, c2, ?_, ?_, ?_⟩
      · intro h2 h
        exact c3 h2 ((lookup_append_isSome _ _ _).2 (Or.inl h))
      · intro o ho
        rcases List.mem_cons.1 ho with h1 | h1
        · subst h1
          exact c3 _ ((lookup_append_isSome _ _ _).2
            (Or.inr ((lookup_singleton_isSome _ _ _).2 rfl)))
        · exact c4 o h1
      · intro h2 h
        rcases c5 h2 h with h1 | ⟨o, ho, h3⟩
        · rcases List.mem_append.1 h1 with h4 | h4
          · exact Or.inl h4
          · rw [List.mem_singleton] at h4
            subst h4
            exact Or.inr ⟨oc, List.mem_cons_self _ _, rfl⟩
        · exact Or.inr ⟨o, List.mem_cons_of_mem _ ho, h3⟩

theorem traceLines_spec (oracle : Nat → Nat → GoalKey) (digest : String → String)
    (adaptive : Bool) (lineLens : List Nat) :
    ∀ (lns : List Nat) (us : List (String × String)) (occs : List Occurrence)
      (fl : List String),
      fl.Nodup → (∀ h2, h2 ∈ fl ↔ (us.lookup h2).isSome) →
      (∀ oc ∈ occs, (us.lookup oc.h).isSome) →
      (∀ h2 ∈ fl, ∃ oc ∈ occs, oc.h = h2) →
      (traceLines oracle digest adaptive lineLens lns us occs fl).fetches.Nodup
        ∧ (∀ oc ∈ (traceLines oracle digest adaptive lineLens lns us occs fl).occurrences,
            (((traceLines oracle digest adaptive lineLens lns us occs fl).unique_states).lookup
              oc.h).isSome)
        ∧ ∀ h2 ∈ (traceLines oracle digest adaptive lineLens lns us occs fl).fetches,
            ∃ oc ∈ (traceLines oracle digest adaptive lineLens lns us occs fl).occurrences,
              oc.h = h2
  | [], us, occs, fl, hnd, hiff, hocc, hfl => ⟨hnd, hocc, hfl⟩
  | ln :: rest, us, occs, fl, hnd, hiff, hocc, hfl => by
    have hcons : ∀ p ∈ (if adaptive then scan_line_adaptive (oracle ln) (lineLens.getD ln 0)
        else scan_line_dense (oracle ln) (lineLens.getD ln 0)),
        p.1 ≤ lineLens.getD ln 0 ∧ p.2 = oracle ln p.1 := by
      cases adaptive with
      | true => simpa using scan_line_adaptive_consistent (oracle ln) (lineLens.getD ln 0)
      | false => simpa using scan_line_dense_consistent (oracle ln) (lineLens.getD ln 0)
    have hgood : ∀ oc ∈ transitions_to_occurrences digest ln (lineLens.getD ln 0)
        (if adaptive then scan_line_adaptive (oracle ln) (lineLens.getD ln 0)
          else scan_line_dense (oracle ln) (lineLens.getD ln 0)),
        ∃ s, oracle ln oc.col_start = some s ∧ oc.h = digest s := by
      intro oc hoc
      obtain ⟨_, s, hs1, hs2⟩ :=
        transitions_to_occurrences_source digest ln (lineLens.getD ln 0) _ oc hoc
      refine ⟨s, ?_, hs2⟩
      have := (hcons _ hs1).2
      exact this.symm
    obtain ⟨c1, c2, c3, c4, c5⟩ := recordOccs_spec oracle digest ln
      (transitions_to_occurrences digest ln (lineLens.getD ln 0)
        (if adaptive then scan_line_adaptive (oracle ln) (lineLens.getD ln 0)
          else scan_line_dense (oracle ln) (lineLens.getD ln 0))) us fl hgood hnd hiff
    have heq : traceLines oracle digest adaptive lineLens (ln :: rest) us occs fl
        = traceLines oracle digest adaptive lineLens rest
            (recordOccs oracle ln (transitions_to_occurrences digest ln (lineLens.getD ln 0)
              (if adaptive then scan_line_adaptive (oracle ln) (lineLens.getD ln 0)
                else scan_line_dense (oracle ln) (lineLens.getD ln 0))) us fl).1
            (occs ++ transitions_to_occurrences digest ln (lineLens.getD ln 0)
              (if adaptive then scan_line_adaptive (oracle ln) (lineLens.getD ln 0)
                else scan_line_dense (oracle ln) (lineLens.getD ln 0)))
            (recordOccs oracle ln (transitions_to_occurrences digest ln (lineLens.getD ln 0)
              (if adaptive then scan_line_adaptive (oracle ln) (lineLens.getD ln 0)
                else scan_line_dense (oracle ln) (lineLens.getD ln 0))) us fl).2 := by
      simp only [traceLines]
    rw [heq]
    exact traceLines_spec oracle digest adaptive lineLens rest _ _ _ c1 c2
      (by
        intro oc hoc
        rcases List.mem_append.1 hoc with h1 | h1
        · exact c3 _ (hocc oc h1)
        · exact c4 oc h1)
      (by
        intro h2 h
        rcases c5 h2 h with h1 | ⟨o, ho, h3⟩
        · obtain ⟨o, ho, h3⟩ := hfl h2 h1
          exact ⟨o, List.mem_append.2 (Or.inl ho), h3⟩
        · exact ⟨o, List.mem_append.2 (Or.inr ho), h3⟩)

/-- C8: in the trace returned by `trace_open_file`, every occurrence's hash is
a key of `unique_states`, and the goal-text fetch for a hash happens exactly
once per distinct observed hash (the fetch log has no duplicates and contains
only hashes of returned occurrences): subsequent occurrences bearing an
already-seen hash trigger no re-fetch. -/
theorem trace_unique_states_spec (oracle : Nat → Nat → GoalKey) (digest : String → String)
    (mode : String) (lineLens : List Nat) (s e : Option Int) :
    (∀ oc ∈ (trace_open_file oracle digest mode lineLens s e).occurrences,
        (((trace_open_file oracle digest mode lineLens s e).unique_states).lookup
          oc.h).isSome)
      ∧ (trace_open_file oracle digest mode lineLens s e).fetches.Nodup
      ∧ ∀ h2 ∈ (trace_open_file oracle digest mode lineLens s e).fetches,
          ∃ oc ∈ (trace_open_file oracle digest mode lineLens s e).occurrences, oc.h = h2 := by
  obtain ⟨c1, c2, c3⟩ := traceLines_spec oracle digest (mode = "adaptive") lineLens
    (scannedIndices lineLens.length s e) [] [] []
    List.nodup_nil (by simp [List.lookup]) (by simp) (by simp)
  exact ⟨c2, c1, c3⟩

/-! ## Helper lemmas: strategy equivalence (C1) -/

theorem bsearch_boundary (get : Nat → GoalKey) (ka : GoalKey) (T : Nat) :
    ∀ (fuel lo hi : Nat), lo < T → T ≤ hi → hi - lo ≤ fuel →
      (∀ x, lo ≤ x → x ≤ hi → (get x = ka ↔ x < T)) →
      bsearch get ka fuel lo hi = T
  | 0, lo, hi, h1, h2, h3, _ => by omega
  | fuel + 1, lo, hi, h1, h2, h3, hiff => by
    by_cases hgt : hi - lo > 1
    · simp only [bsearch, if_pos hgt]
      by_cases hm : get ((lo + hi) / 2) = ka
      · rw [if_pos hm]
        have hmT : (lo + hi) / 2 < T := (hiff _ (by omega) (by omega)).1 hm
        exact bsearch_boundary get ka T fuel _ hi hmT h2 (by omega)
          fun x hx1 hx2 => hiff x (by omega) hx2
      · rw [if_neg hm]
        have hmT : T ≤ (lo + hi) / 2 := by
          by_contra hcon
          push_neg at hcon
          exact hm ((hiff _ (by omega) (by omega)).2 hcon)
        exact bsearch_boundary get ka T fuel lo _ h1 hmT (by omega)
          fun x hx1 hx2 => hiff x hx1 (by omega)
    · simp only [bsearch, if_neg hgt]
      omega

theorem boundariesLoop_const (get : Nat → GoalKey) (fuel : Nat) (k : GoalKey) :
    ∀ (l : List Nat), (∀ x ∈ l, get x = k) → boundariesLoop get fuel l = []
  | [], _ => rfl
  | [a], _ => rfl
  | a :: b :: t, h => by
    have hab : get a = get b := by
      rw [h a (List.mem_cons_self _ _),
        h b (List.mem_cons_of_mem _ (List.mem_cons_self _ _))]
    rw [boundariesLoop, if_pos hab]
    exact boundariesLoop_const get fuel k (b :: t)
      fun x hx => h x (List.mem_cons_of_mem _ hx)

theorem boundariesLoop_region (get : Nat → GoalKey) (n T : Nat) (ka kb : GoalKey)
    (hne : ¬ kb = ka) (hval : ∀ x, x ≤ n → get x = if x < T then ka else kb) :
    ∀ (rest : List Nat) (a : Nat), ((a :: rest).Pairwise (· < ·)) →
      (∀ x ∈ a :: rest, x ≤ n) → a < T →
      (∃ m, (a :: rest).getLast? = some m ∧ T ≤ m) →
      boundariesLoop get n (a :: rest) = [T]
  | [], a, _, _, ha, ⟨m, hm, hTm⟩ => by
    simp only [List.getLast?_singleton, Option.some_inj] at hm
    omega
  | b :: t, a, hpw, hle, ha, ⟨m, hm, hTm⟩ => by
    rw [List.getLast?_cons_cons] at hm
    have han : a ≤ n := hle a (List.mem_cons_self _ _)
    have hbn : b ≤ n := hle b (List.mem_cons_of_mem _ (List.mem_cons_self _ _))
    have hga : get a = ka := by rw [hval a han, if_pos ha]
    by_cases hb : b < T
    · have hgb : get b = ka := by rw [hval b hbn, if_pos hb]
      rw [boundariesLoop, if_pos (by rw [hga, hgb])]
      exact boundariesLoop_region get n T ka kb hne hval t b (List.pairwise_cons.1 hpw).2
        (fun x hx => hle x (List.mem_cons_of_mem _ hx)) hb ⟨m, hm, hTm⟩
    · push_neg at hb
      have hgb : get b = kb := by rw [hval b hbn, if_neg (not_lt.2 hb)]
      have hgne : ¬ get a = get b := by
        rw [hga, hgb]
        intro hcontra
        exact hne hcontra.symm
      rw [boundariesLoop, if_neg hgne]
      have hbs : bsearch get (get a) n a b = T := by
        rw [hga]
        refine bsearch_boundary get ka T n a b ha hb (by omega) ?_
        intro x hx1 hx2
        rw [hval x (by omega)]
        by_cases hxT : x < T
        · simp [hxT]
        · simp only [if_neg hxT]
          constructor
          · intro hkb; exact absurd hkb hne
          · intro hlt; exact absurd hlt hxT
      have htail : boundariesLoop get n (b :: t) = [] := by
        apply boundariesLoop_const get n kb (b :: t)
        intro x hx
        have hxn : x ≤ n := hle x (List.mem_cons_of_mem _ hx)
        have hTx : T ≤ x := by
          rcases List.mem_cons.1 hx with rfl | hxt
          · exact hb
          · have := (List.pairwise_cons.1 (List.pairwise_cons.1 hpw).2).1 x hxt
            omega
        rw [hval x hxn, if_neg (not_lt.2 hTx)]
      rw [hbs, htail]

theorem adaptive_unfold (key : Nat → GoalKey) (n : Nat) (hn : ¬ n = 0) :
    scan_line_adaptive key n =
      match (walk (adaptGet key n) none
          (((0 :: boundariesLoop (adaptGet key n) n (samples n)).insertionSort
            (· ≤ ·)).dedup)).getLast? with
      | none => walk (adaptGet key n) none
          (((0 :: boundariesLoop (adaptGet key n) n (samples n)).insertionSort
            (· ≤ ·)).dedup)
      | some (c, k) =>
        if c ≠ n then
          if adaptGet key n n ≠ k then
            walk (adaptGet key n) none
              (((0 :: boundariesLoop (adaptGet key n) n (samples n)).insertionSort
                (· ≤ ·)).dedup) ++ [(n, adaptGet key n n)]
          else walk (adaptGet key n) none
            (((0 :: boundariesLoop (adaptGet key n) n (samples n)).insertionSort
              (· ≤ ·)).dedup)
        else walk (adaptGet key n) none
          (((0 :: boundariesLoop (adaptGet key n) n (samples n)).insertionSort
            (· ≤ ·)).dedup) := by
  simp only [scan_line_adaptive, if_neg hn]

theorem adaptive_no_change (key : Nat → GoalKey) (n : Nat) (hn : ¬ n = 0)
    (hconst : ∀ c, c ≤ n → key c = key 0) :
    scan_line_adaptive key n = [(0, key 0)] := by
  have hget : ∀ x, adaptGet key n x = key 0 := by
    intro x
    show key (max 0 (min n x)) = key 0
    have : max 0 (min n x) ≤ n := by
      have := min_le_left n x
      omega
    exact hconst _ this
  have hbl : boundariesLoop (adaptGet key n) n (samples n) = [] :=
    boundariesLoop_const _ _ (key 0) _ fun x _ => hget x
  have htc : ((([0] : List Nat)).insertionSort (· ≤ ·)).dedup = [0] := by decide
  have hwalk : walk (adaptGet key n) none [0] = [(0, key 0)] := by
    rw [walk_cons_start, hget 0]
    rfl
  rw [adaptive_unfold key n hn, hbl, htc, hwalk]
  simp only [List.getLast?_singleton]
  rw [if_pos (by omega : (0 : Nat) ≠ n)]
  rw [if_neg (by rw [hget n, ne_eq, not_not])]

theorem adaptive_one_change (key : Nat → GoalKey) (n T : Nat) (hn : ¬ n = 0)
    (hT1 : 1 ≤ T) (hTn : T ≤ n)
    (hlow : ∀ c, c < T → key c = key 0)
    (hhigh : ∀ c, T ≤ c → c ≤ n → key c = key T)
    (hne : ¬ key T = key 0) :
    scan_line_adaptive key n = [(0, key 0), (T, key T)] := by
  have hval : ∀ x, x ≤ n → adaptGet key n x = if x < T then key 0 else key T := by
    intro x hx
    show key (max 0 (min n x)) = _
    rw [Nat.zero_max, min_eq_right hx]
    by_cases hxT : x < T
    · rw [if_pos hxT]; exact hlow x hxT
    · rw [if_neg hxT]
      push_neg at hxT
      exact hhigh x hxT hx
  obtain ⟨hseq, hschain, hsle, hslast⟩ := samples_spec n hn
  have hspw : (samples n).Pairwise (· < ·) := List.chain'_iff_pairwise.1 hschain
  have hbl : boundariesLoop (adaptGet key n) n (samples n) = [T] := by
    rw [hseq] at hspw hsle hslast ⊢
    exact boundariesLoop_region (adaptGet key n) n T (key 0) (key T) hne hval
      (samplesAux n n 0 0) 0 hspw hsle (by omega) ⟨n, hslast, hTn⟩
  have htc : ((0 :: [T]).insertionSort (· ≤ ·)).dedup = [0, T] := by
    have hsorted : (0 :: [T]).insertionSort (· ≤ ·) = [0, T] :=
      List.Sorted.insertionSort_eq
        (List.pairwise_cons.2 ⟨by intro b hb; rw [List.mem_singleton] at hb; omega,
          List.pairwise_singleton _ _⟩)
    rw [hsorted]
    rw [List.dedup_cons_of_not_mem (by rw [List.mem_singleton]; omega)]
    rfl
  have hg0 : adaptGet key n 0 = key 0 := by rw [hval 0 (by omega), if_pos (by omega)]
  have hgT : adaptGet key n T = key T := by rw [hval T hTn, if_neg (by omega)]
  have hgn : adaptGet key n n = key T := by
    rw [hval n (le_refl n)]
    by_cases hTn2 : n < T
    · omega
    · rw [if_neg hTn2]
  have hwalk : walk (adaptGet key n) none [0, T] = [(0, key 0), (T, key T)] := by
    rw [walk_cons_start, hg0]
    show (0, key 0) :: walk (adaptGet key n) (some (key 0)) [T] = _
    rw [walk]
    rw [if_neg (by rw [hgT]; simp [hne]), hgT]
    rfl
  rw [adaptive_unfold key n hn, hbl, htc, hwalk]
  have hlast : ([(0, key 0), (T, key T)] : List (Nat × GoalKey)).getLast? = some (T, key T) :=
    rfl
  rw [hlast]
  by_cases hTeq : T = n
  · simp [hTeq]
  · simp [hTeq, hgn]

theorem dense_no_change (key : Nat → GoalKey) (n : Nat)
    (h : ∀ c ∈ List.range' 1 n, key c = key (c - 1)) :
    scan_line_dense key n = [(0, key 0)] := by
  rw [(scan_line_dense_spec key n).1]
  have : (List.range' 1 n).filterMap
      (fun c => if key c = key (c - 1) then none else some (c, key c)) = [] := by
    rw [List.filterMap_eq_nil_iff]
    intro c hc
    rw [if_pos (h c hc)]
  rw [this]

theorem dense_one_change (key : Nat → GoalKey) (n T : Nat)
    (hT1 : 1 ≤ T) (hTn : T ≤ n)
    (hlow : ∀ c, c < T → key c = key 0)
    (hhigh : ∀ c, T ≤ c → c ≤ n → key c = key T)
    (hne : ¬ key T = key 0) :
    scan_line_dense key n = [(0, key 0), (T, key T)] := by
  rw [(scan_line_dense_spec key n).1]
  have hsplit : List.range' 1 n = List.range' 1 (T - 1) ++ List.range' T (n - T + 1) := by
    have := List.range'_append_1 1 (T - 1) (n - T + 1)
    rw [show 1 + (T - 1) = T by omega] at this
    rw [show n - T + 1 + (T - 1) = n by omega] at this
    exact this.symm
  rw [hsplit, List.filterMap_append]
  have hpart1 : (List.range' 1 (T - 1)).filterMap
      (fun c => if key c = key (c - 1) then none else some (c, key c)) = [] := by
    rw [List.filterMap_eq_nil_iff]
    intro c hc
    rw [List.mem_range'_1] at hc
    rw [if_pos]
    rw [hlow c (by omega), hlow (c - 1) (by omega)]
  have hpart2 : (List.range' T (n - T + 1)).filterMap
      (fun c => if key c = key (c - 1) then none else some (c, key c)) = [(T, key T)] := by
    rw [show n - T + 1 = (n - T) + 1 by omega, List.range'_succ, List.filterMap_cons]
    have hTkey : ¬ key T = key (T - 1) := by
      rw [hlow (T - 1) (by omega)]
      exact hne
    rw [if_neg hTkey]
    have hrest : (List.range' (T + 1) (n - T)).filterMap
        (fun c => if key c = key (c - 1) then none else some (c, key c)) = [] := by
      rw [List.filterMap_eq_nil_iff]
      intro c hc
      rw [List.mem_range'_1] at hc
      rw [if_pos]
      rw [hhigh c (by omega) (by omega), hhigh (c - 1) (by omega) (by omega)]
    rw [hrest]
  rw [hpart1, hpart2]
  rfl

/-- C1, counterexample: for the piecewise-constant oracle that is `"A"`
everywhere on `0..4` except `"B"` at column 2 (two breakpoints, at columns 2
and 3), the adaptive scan misses the change entirely — its geometric samples
`[0, 1, 3, 4]` all read `"A"` — while the dense scan reports it, so the two
strategies return different transition lists. -/
theorem scan_strategies_differ :
    scan_line_adaptive (fun c => if c = 2 then some "B" else some "A") 4
      ≠ scan_line_dense (fun c => if c = 2 then some "B" else some "A") 4 := by
  decide

/-- C1, amended: the two strategies return identical transition lists whenever
the oracle has at most one breakpoint on the scanned columns (at most one
column `c ∈ 1..n` with `key c ≠ key (c - 1)`). -/
theorem scan_adaptive_eq_dense (key : Nat → GoalKey) (n : Nat)
    (h : (changeColumns key n).length ≤ 1) :
    scan_line_adaptive key n = scan_line_dense key n := by
  by_cases hn : n = 0
  · subst hn; rfl
  cases hc : changeColumns key n with
  | nil =>
    have hall : ∀ c ∈ List.range' 1 n, key c = key (c - 1) := by
      intro c hcmem
      by_contra hcon
      exact List.filter_eq_nil_iff.1 hc c hcmem (by simp only [decide_eq_true_eq]; exact hcon)
    have hconst : ∀ c, c ≤ n → key c = key 0 := by
      intro c
      induction c with
      | zero => intro _; rfl
      | succ c ih =>
        intro hcn
        have h1 : key (c + 1) = key c := by
          have := hall (c + 1) (by rw [List.mem_range'_1]; omega)
          simpa using this
        rw [h1]
        exact ih (by omega)
    rw [adaptive_no_change key n hn hconst, dense_no_change key n hall]
  | cons t rest =>
    have hrest : rest = [] := by
      rw [hc] at h
      simp only [List.length_cons] at h
      exact List.length_eq_zero.1 (by omega)
    subst hrest
    have htmem : t ∈ changeColumns key n := by rw [hc]; exact List.mem_singleton.2 rfl
    have ht : 1 ≤ t ∧ t ≤ n ∧ ¬ key t = key (t - 1) := by
      rw [changeColumns, List.mem_filter] at htmem
      obtain ⟨h1, h2⟩ := htmem
      rw [List.mem_range'_1] at h1
      simp only [decide_eq_true_eq] at h2
      exact ⟨by omega, by omega, h2⟩
    have huniq : ∀ c, 1 ≤ c → c ≤ n → ¬ key c = key (c - 1) → c = t := by
      intro c h1 h2 h3
      have : c ∈ changeColumns key n := by
        rw [changeColumns, List.mem_filter, List.mem_range'_1]
        refine ⟨by omega, ?_⟩
        simp only [decide_eq_true_eq]
        exact h3
      rw [hc, List.mem_singleton] at this
      exact this
    have hnochange : ∀ c, 1 ≤ c → c ≤ n → c ≠ t → key c = key (c - 1) := by
      intro c h1 h2 h3
      by_contra hcon
      exact h3 (huniq c h1 h2 hcon)
    have hlow : ∀ c, c < t → key c = key 0 := by
      intro c
      induction c with
      | zero => intro _; rfl
      | succ c ih =>
        intro hct
        have h1 : key (c + 1) = key c := by
          have := hnochange (c + 1) (by omega) (by omega) (by omega)
          simpa using this
        rw [h1]
        exact ih (by omega)
    have hhigh : ∀ c, t ≤ c → c ≤ n → key c = key t := by
      intro c
      induction c with
      | zero =>
        intro h1 _
        have : t = 0 := by omega
        rw [this]
      | succ c ih =>
        intro h1 h2
        by_cases hct : t = c + 1
        · rw [hct]
        · have h3 : key (c + 1) = key c := by
            have := hnochange (c + 1) (by omega) (by omega) (by omega)
            simpa using this
          rw [h3]
          exact ih (by omega) (by omega)
    have hne2 : ¬ key t = key 0 := by
      intro hcon
      apply ht.2.2
      rw [hlow (t - 1) (by omega), hcon]
    rw [adaptive_one_change key n t hn ht.1 ht.2.1 hlow hhigh hne2,
      dense_one_change key n t ht.1 ht.2.1 hlow hhigh hne2]

/-- Witness for the amended C1 theorem: a single-breakpoint oracle on a line of
length 5, where both strategies agree. -/
theorem scan_adaptive_eq_dense_witness :
    ((changeColumns (fun c => if c < 3 then some "a" else none) 5).length ≤ 1)
      ∧ scan_line_adaptive (fun c => if c < 3 then some "a" else none) 5
          = scan_line_dense (fun c => if c < 3 then some "a" else none) 5 :=
  ⟨by decide, scan_adaptive_eq_dense _ 5 (by decide)⟩

/-! ## Helper lemmas: wire framing (C9) -/

theorem readline_append (pre post : List Nat) (h : 10 ∉ pre) :
    readline (pre ++ 10 :: post) = (pre ++ [10], post) := by
  induction pre with
  | nil => simp [readline]
  | cons b t ih =>
    have hb : ¬ b = 10 := fun hb => h (by rw [hb]; exact List.mem_cons_self _ _)
    rw [List.cons_append, readline, if_neg hb, ih fun ht => h (List.mem_cons_of_mem _ ht)]
    rfl

theorem readline_snd_length : ∀ bs : List Nat, (readline bs).2.length ≤ bs.length
  | [] => le_refl 0
  | b :: rest => by
    rw [readline]
    by_cases hb : b = 10
    · simp [hb]
    · rw [if_neg hb]
      have := readline_snd_length rest
      simpa using Nat.le_succ_of_le this

theorem asciiDecode_of_ascii (bs : List Nat) (h : ∀ b ∈ bs, b < 128) :
    asciiDecode bs = bs := by
  induction bs with
  | nil => rfl
  | cons b t ih =>
    rw [asciiDecode, List.map_cons, if_pos (h b (List.mem_cons_self _ _))]
    have := ih fun x hx => h x (List.mem_cons_of_mem _ hx)
    rw [asciiDecode] at this
    rw [this]

theorem pyStrip_wrap (w1 core w2 : List Nat)
    (hw1 : ∀ c ∈ w1, isPySpace c = true) (hw2 : ∀ c ∈ w2, isPySpace c = true)
    (hhead : ∃ a t, core = a :: t ∧ isPySpace a = false)
    (hlast : ∃ b, core.getLast? = some b ∧ isPySpace b = false) :
    pyStrip (w1 ++ core ++ w2) = core := by
  obtain ⟨a, t, hcore, ha⟩ := hhead
  obtain ⟨b, hb, hbs⟩ := hlast
  rw [pyStrip, List.append_assoc, List.dropWhile_append_of_pos hw1]
  have hstep1 : (core ++ w2).dropWhile isPySpace = core ++ w2 := by
    rw [hcore, List.cons_append, List.dropWhile_cons, ha]
    simp
  rw [hstep1, List.reverse_append, List.dropWhile_append_of_pos
    (by intro c hc; exact hw2 c (List.mem_reverse.1 hc))]
  have hrev : core.reverse.dropWhile isPySpace = core.reverse := by
    have hrevhead : core.reverse.head? = some b := by rw [List.head?_reverse]; exact hb
    cases hr : core.reverse with
    | nil => rw [hr] at hrevhead; simp at hrevhead
    | cons x xs =>
      rw [hr] at hrevhead
      simp only [List.head?_cons, Option.some_inj] at hrevhead
      subst hrevhead
      rw [List.dropWhile_cons, hbs]
      simp
  rw [hrev, List.reverse_reverse]

theorem pyStrip_spaces (w : List Nat) (hw : ∀ c ∈ w, isPySpace c = true) :
    pyStrip w = [] := by
  rw [pyStrip]
  have h1 : w.dropWhile isPySpace = [] := by
    rw [List.dropWhile_eq_nil_iff]
    intro x hx
    rw [hw x hx]
  rw [h1]
  rfl

theorem splitColon_append (k v : List Nat) (hk : 58 ∉ k) :
    splitColon (k ++ 58 :: v) = some (k, v) := by
  induction k with
  | nil => simp [splitColon]
  | cons c t ih =>
    have hc : ¬ c = 58 := fun hc => hk (by rw [hc]; exact List.mem_cons_self _ _)
    rw [List.cons_append, splitColon, if_neg hc, ih fun ht => hk (List.mem_cons_of_mem _ ht)]
    rfl

theorem digitsVal_concat (l : List Nat) (c : Nat) :
    digitsVal (l ++ [c]) = digitsVal l * 10 + (c - 48) := by
  rw [digitsVal, digitsVal, List.foldl_append]
  rfl

theorem natDecimalAux_spec :
    ∀ (fuel n : Nat), n ≤ fuel →
      natDecimalAux (fuel + 1) n ≠ []
        ∧ (∀ c ∈ natDecimalAux (fuel + 1) n, isDigitCode c = true)
        ∧ digitsVal (natDecimalAux (fuel + 1) n) = n
  | 0, n, hn => by
    have : n = 0 := by omega
    subst this
    exact ⟨by decide, by decide, by decide⟩
  | fuel + 1, n, hn => by
    by_cases h10 : n < 10
    · have hunf : natDecimalAux (fuel + 1 + 1) n = [48 + n] := by
        rw [natDecimalAux, if_pos h10]
      rw [hunf]
      refine ⟨by simp, ?_, ?_⟩
      · intro c hc
        rw [List.mem_singleton] at hc
        subst hc
        simp only [isDigitCode, Bool.and_eq_true, decide_eq_true_eq]
        omega
      · have hv : digitsVal [48 + n] = 0 * 10 + (48 + n - 48) := rfl
        omega
    · have hunf : natDecimalAux (fuel + 1 + 1) n
          = natDecimalAux (fuel + 1) (n / 10) ++ [48 + n % 10] := by
        rw [natDecimalAux, if_neg h10]
      rw [hunf]
      obtain ⟨ih1, ih2, ih3⟩ := natDecimalAux_spec fuel (n / 10) (by omega)
      refine ⟨by simp, ?_, ?_⟩
      · intro c hc
        rcases List.mem_append.1 hc with h1 | h1
        · exact ih2 c h1
        · rw [List.mem_singleton] at h1
          subst h1
          simp only [isDigitCode, Bool.and_eq_true, decide_eq_true_eq]
          omega
      · rw [digitsVal_concat, ih3]
        omega

theorem natDecimal_spec (n : Nat) :
    natDecimal n ≠ []
      ∧ (∀ c ∈ natDecimal n, isDigitCode c = true)
      ∧ digitsVal (natDecimal n) = n :=
  natDecimalAux_spec n n (le_refl n)

theorem pyInt_natDecimal (n : Nat) : pyInt (natDecimal n) = some n := by
  obtain ⟨hne, hdig, hval⟩ := natDecimal_spec n
  cases hd : natDecimal n with
  | nil => exact absurd hd hne
  | cons c t =>
    rw [hd] at hdig hval
    rw [pyInt, if_pos (List.all_eq_true.2 hdig), hval]
    simp

theorem digit_facts (c : Nat) (h : isDigitCode c = true) :
    c < 128 ∧ ¬ c = 10 ∧ ¬ c = 58 ∧ isPySpace c = false := by
  simp only [isDigitCode, Bool.and_eq_true, decide_eq_true_eq] at h
  refine ⟨by omega, by omega, by omega, ?_⟩
  simp only [isPySpace, Bool.or_eq_false_iff, decide_eq_false_iff_not]
  omega

theorem lookup_dictInsert_self (assoc : List (List Nat × List Nat)) (k v : List Nat) :
    (dictInsert assoc k v).lookup k = some v := by
  rw [dictInsert, List.lookup]
  simp

theorem readHeaders_blank (fuel : Nat) (rest : List Nat) (acc : List (List Nat × List Nat)) :
    readHeaders (fuel + 1) (13 :: 10 :: rest) acc = some (acc, rest) := by
  have hrl : readline (13 :: 10 :: rest) = ([13, 10], rest) := by
    rw [readline, if_neg (by omega)]
    rw [show readline (10 :: rest) = ([10], rest) by rw [readline, if_pos rfl]]
  simp only [readHeaders, hrl]
  rw [if_neg (by simp)]
  rw [show pyStrip (asciiDecode [13, 10]) = [] from rfl]
  simp

theorem readHeaders_headerLine (fuel : Nat) (k v rest : List Nat)
    (acc : List (List Nat × List Nat))
    (hk : ∀ b ∈ k, b < 128 ∧ ¬ b = 10 ∧ ¬ b = 58 ∧ isPySpace b = false)
    (hkne : k ≠ [])
    (hv : ∀ b ∈ v, b < 128 ∧ ¬ b = 10)
    (hvlast : v = [] ∨ ∃ b, v.getLast? = some b ∧ isPySpace b = false) :
    readHeaders (fuel + 1) (k ++ [58] ++ v ++ [13, 10] ++ rest) acc
      = readHeaders fuel rest (dictInsert acc (pyLower k) (pyStrip v)) := by
  obtain ⟨a, t, hkshape⟩ := List.exists_cons_of_ne_nil hkne
  have hbytes : k ++ [58] ++ v ++ [13, 10] ++ rest = (k ++ [58] ++ v ++ [13]) ++ 10 :: rest := by
    simp
  have h10 : (10 : Nat) ∉ k ++ [58] ++ v ++ [13] := by
    intro hmem
    rcases List.mem_append.1 hmem with h1 | h1
    · rcases List.mem_append.1 h1 with h2 | h2
      · rcases List.mem_append.1 h2 with h3 | h3
        · exact (hk 10 h3).2.1 rfl
        · rw [List.mem_singleton] at h3; omega
      · exact (hv 10 h2).2 rfl
    · rw [List.mem_singleton] at h1; omega
  have hdec : asciiDecode ((k ++ [58] ++ v ++ [13]) ++ [10]) = (k ++ [58] ++ v ++ [13]) ++ [10] := by
    apply asciiDecode_of_ascii
    intro b hb
    rcases List.mem_append.1 hb with h1 | h1
    · rcases List.mem_append.1 h1 with h2 | h2
      · rcases List.mem_append.1 h2 with h3 | h3
        · rcases List.mem_append.1 h3 with h4 | h4
          · exact (hk b h4).1
          · rw [List.mem_singleton] at h4; omega
        · exact (hv b h3).1
      · rw [List.mem_singleton] at h2; omega
    · rw [List.mem_singleton] at h1; omega
  have hspace1310 : ∀ c ∈ ([13, 10] : List Nat), isPySpace c = true := by
    intro c hc
    rcases List.mem_cons.1 hc with rfl | hc2
    · rfl
    · rw [List.mem_singleton] at hc2; subst hc2; rfl
  have hcorelast : ∃ b, (k ++ [58] ++ v).getLast? = some b ∧ isPySpace b = false := by
    rcases hvlast with hv0 | ⟨b, hb1, hb2⟩
    · subst hv0
      refine ⟨58, ?_, rfl⟩
      simp
    · refine ⟨b, ?_, hb2⟩
      have hvne : v ≠ [] := by
        intro hcon
        rw [hcon] at hb1
        simp at hb1
      rw [List.getLast?_append, List.getLast?_append, hb1]
      rfl
  have hstrip : pyStrip ((k ++ [58] ++ v ++ [13]) ++ [10]) = k ++ [58] ++ v := by
    have heq2 : (k ++ [58] ++ v ++ [13]) ++ [10] = [] ++ (k ++ [58] ++ v) ++ [13, 10] := by
      simp
    rw [heq2]
    exact pyStrip_wrap [] (k ++ [58] ++ v) [13, 10] (by simp) hspace1310
      ⟨a, t ++ [58] ++ v, by rw [hkshape]; simp, (hk a (by rw [hkshape]; simp)).2.2.2⟩
      hcorelast
  have hsne : k ++ [58] ++ v ≠ [] := by simp
  have hsplit : splitColon (k ++ [58] ++ v) = some (k, v) := by
    have heq3 : k ++ [58] ++ v = k ++ 58 :: v := by simp
    rw [heq3]
    exact splitColon_append k v fun hm => (hk 58 hm).2.2.1 rfl
  have hstripk : pyStrip k = k := by
    have heq4 : k = [] ++ k ++ [] := by simp
    conv_lhs => rw [heq4]
    refine pyStrip_wrap [] k [] (by simp) (by simp)
      ⟨a, t, hkshape, (hk a (by rw [hkshape]; simp)).2.2.2⟩ ?_
    cases hgl : k.getLast? with
    | none =>
      rw [List.getLast?_eq_none_iff] at hgl
      exact absurd hgl hkne
    | some b =>
      exact ⟨b, rfl, (hk b (List.mem_of_mem_getLast? (Option.mem_def.2 hgl))).2.2.2⟩
  rw [hbytes]
  simp only [readHeaders, readline_append (k ++ [58] ++ v ++ [13]) rest h10]
  rw [if_neg (by simp), hdec, hstrip, if_neg hsne, hsplit]
  show readHeaders fuel rest (dictInsert acc (pyLower (pyStrip k)) (pyStrip v)) = _
  rw [hstripk]

theorem readHeaders_fuel :
    ∀ (fuel1 fuel2 : Nat) (bs : List Nat) (acc : List (List Nat × List Nat)),
      bs.length < fuel1 → bs.length < fuel2 →
      readHeaders fuel1 bs acc = readHeaders fuel2 bs acc
  | 0, _, bs, _, h1, _ => by omega
  | _ + 1, 0, bs, _, _, h2 => by omega
  | fuel1 + 1, fuel2 + 1, bs, acc, h1, h2 => by
    cases bs with
    | nil => rfl
    | cons b rest0 =>
      simp only [readHeaders]
      by_cases hr : (readline (b :: rest0)).1 = []
      · rw [if_pos hr, if_pos hr]
      · rw [if_neg hr, if_neg hr]
        by_cases hs : pyStrip (asciiDecode (readline (b :: rest0)).1) = []
        · rw [if_pos hs, if_pos hs]
        · rw [if_neg hs, if_neg hs]
          have hlen : (readline (b :: rest0)).2.length ≤ rest0.length := by
            rw [readline]
            by_cases hb : b = 10
            · simp [hb]
            · rw [if_neg hb]
              exact readline_snd_length rest0
          cases hsp : splitColon (pyStrip (asciiDecode (readline (b :: rest0)).1)) with
          | none => rfl
          | some kv =>
            obtain ⟨k, v⟩ := kv
            apply readHeaders_fuel fuel1 fuel2
            · simp only [List.length_cons] at h1
              omega
            · simp only [List.length_cons] at h2
              omega

theorem read_msg_of_headers {α : Type} (dec : List Nat → Option α) (bs body rest : List Nat)
    (m : α) (hdec : dec body = some m) (headers : List (List Nat × List Nat))
    (hhead : readHeaders (bs.length + 1) bs [] = some (headers, body ++ rest))
    (hlookup : headers.lookup (ascii "content-length") = some (natDecimal body.length)) :
    read_msg dec bs = some (m, rest) := by
  simp only [read_msg, hhead, hlookup, pyInt_natDecimal]
  rw [if_pos (by simp)]
  rw [List.take_left' rfl, List.drop_left' rfl, hdec]
  rfl

theorem pyStrip_natDecimal (L : Nat) : pyStrip (natDecimal L) = natDecimal L := by
  obtain ⟨hne, hdig, _⟩ := natDecimal_spec L
  obtain ⟨c, t, hshape⟩ := List.exists_cons_of_ne_nil hne
  have heq : natDecimal L = [] ++ natDecimal L ++ [] := by simp
  conv_lhs => rw [heq]
  refine pyStrip_wrap [] (natDecimal L) [] (by simp) (by simp)
    ⟨c, t, hshape, (digit_facts c (hdig c (by rw [hshape]; simp))).2.2.2⟩ ?_
  cases hgl : (natDecimal L).getLast? with
  | none =>
    rw [List.getLast?_eq_none_iff] at hgl
    exact absurd hgl hne
  | some b =>
    exact ⟨b, rfl,
      (digit_facts b (hdig b (List.mem_of_mem_getLast? (Option.mem_def.2 hgl)))).2.2.2⟩

/-- C9: framing round trip.  `lsp_frame` produces a header block whose
`Content-Length` value parses to exactly the byte length of the serialized
payload, followed by exactly that many payload bytes; `read_msg` applied to
that frame (followed by any further stream bytes) returns the original message
and the remaining stream; and `read_msg` accepts the `Content-Length` header
under any casing of the key (any `kcl` lowering to `content-length`) while
ignoring an arbitrary additional header line (`kx: vx`).  The hypothesis
`dec (enc m) = some m` is the JSON-serializability of `m` (Python's
`json.loads ∘ json.dumps` round trip), external to the framing code. -/
theorem framing_roundtrip {α : Type} (enc : α → List Nat) (dec : List Nat → Option α)
    (m : α) (rest : List Nat) (hdec : dec (enc m) = some m)
    (kx vx kcl : List Nat)
    (hkx : ∀ b ∈ kx, b < 128 ∧ ¬ b = 10 ∧ ¬ b = 58 ∧ isPySpace b = false)
    (hkxne : kx ≠ [])
    (hvx : ∀ b ∈ vx, b < 128 ∧ ¬ b = 10)
    (hvxlast : vx = [] ∨ ∃ b, vx.getLast? = some b ∧ isPySpace b = false)
    (hkcl : ∀ b ∈ kcl, b < 128 ∧ ¬ b = 10 ∧ ¬ b = 58 ∧ isPySpace b = false)
    (hkclne : kcl ≠ [])
    (hlower : pyLower kcl = ascii "content-length") :
    (pyInt (natDecimal (enc m).length) = some (enc m).length
        ∧ lsp_frame enc m
            = ascii "Content-Length: " ++ natDecimal (enc m).length
                ++ [13, 10, 13, 10] ++ enc m)
      ∧ read_msg dec (lsp_frame enc m ++ rest) = some (m, rest)
      ∧ read_msg dec (kx ++ [58] ++ vx ++ [13, 10]
            ++ (kcl ++ [58] ++ natDecimal (enc m).length ++ [13, 10]
              ++ (13 :: 10 :: (enc m ++ rest)))) = some (m, rest) := by
  obtain ⟨hDne, hDdig, _⟩ := natDecimal_spec (enc m).length
  obtain ⟨d0, dt, hDshape⟩ := List.exists_cons_of_ne_nil hDne
  have hDbytes : ∀ b ∈ natDecimal (enc m).length, b < 128 ∧ ¬ b = 10 := by
    intro b hb
    obtain ⟨h1, h2, _, _⟩ := digit_facts b (hDdig b hb)
    exact ⟨h1, h2⟩
  have hDlast : ∃ b, (natDecimal (enc m).length).getLast? = some b ∧ isPySpace b = false := by
    cases hgl : (natDecimal (enc m).length).getLast? with
    | none =>
      rw [List.getLast?_eq_none_iff] at hgl
      exact absurd hgl hDne
    | some b =>
      exact ⟨b, rfl,
        (digit_facts b (hDdig b (List.mem_of_mem_getLast? (Option.mem_def.2 hgl)))).2.2.2⟩
  refine ⟨⟨pyInt_natDecimal _, ?_⟩, ?_, ?_⟩
  · rw [lsp_frame, show ascii "\x0d\n\x0d\n" = [13, 10, 13, 10] by decide]
  · -- round trip through the frame written by lsp_frame
    have hframe : lsp_frame enc m ++ rest
        = ascii "Content-Length" ++ [58] ++ (32 :: natDecimal (enc m).length) ++ [13, 10]
            ++ (13 :: 10 :: (enc m ++ rest)) := by
      rw [lsp_frame, show ascii "Content-Length: " = ascii "Content-Length" ++ [58, 32] by decide,
        show ascii "\x0d\n\x0d\n" = [13, 10, 13, 10] by decide]
      simp
    have hstripv : pyStrip (32 :: natDecimal (enc m).length) = natDecimal (enc m).length := by
      have heq : 32 :: natDecimal (enc m).length = [32] ++ natDecimal (enc m).length ++ [] := by
        simp
      rw [heq]
      exact pyStrip_wrap [32] (natDecimal (enc m).length) []
        (by intro c hc; rw [List.mem_singleton] at hc; subst hc; rfl) (by simp)
        ⟨d0, dt, hDshape, (digit_facts d0 (hDdig d0 (by rw [hDshape]; simp))).2.2.2⟩ hDlast
    have h32last : ∃ b, (32 :: natDecimal (enc m).length).getLast? = some b
        ∧ isPySpace b = false := by
      obtain ⟨b, hb1, hb2⟩ := hDlast
      refine ⟨b, ?_, hb2⟩
      rw [show (32 :: natDecimal (enc m).length) = [32] ++ natDecimal (enc m).length from rfl,
        List.getLast?_append, hb1]
      rfl
    have hhead : readHeaders ((lsp_frame enc m ++ rest).length + 1) (lsp_frame enc m ++ rest) []
        = some (dictInsert [] (ascii "content-length") (natDecimal (enc m).length),
            enc m ++ rest) := by
      rw [hframe]
      rw [readHeaders_headerLine _ (ascii "Content-Length") (32 :: natDecimal (enc m).length)
        (13 :: 10 :: (enc m ++ rest)) [] (by decide) (by decide)
        (by
          intro b hb
          rcases List.mem_cons.1 hb with rfl | hb2
          · exact ⟨by omega, by omega⟩
          · exact hDbytes b hb2)
        (Or.inr h32last)]
      rw [show pyLower (ascii "Content-Length") = ascii "content-length" by decide, hstripv]
      rw [readHeaders_fuel _ ((13 :: 10 :: (enc m ++ rest)).length + 1)
        (13 :: 10 :: (enc m ++ rest)) _
        (by simp [List.length_append, List.length_cons]; omega) (by omega)]
      exact readHeaders_blank _ _ _
    exact read_msg_of_headers dec _ (enc m) rest m hdec _ hhead (lookup_dictInsert_self _ _ _)
  · -- generalized frame: arbitrary-cased Content-Length key plus an ignored header
    have hhead : readHeaders
        ((kx ++ [58] ++ vx ++ [13, 10]
          ++ (kcl ++ [58] ++ natDecimal (enc m).length ++ [13, 10]
            ++ (13 :: 10 :: (enc m ++ rest)))).length + 1)
        (kx ++ [58] ++ vx ++ [13, 10]
          ++ (kcl ++ [58] ++ natDecimal (enc m).length ++ [13, 10]
            ++ (13 :: 10 :: (enc m ++ rest)))) []
        = some (dictInsert (dictInsert [] (pyLower kx) (pyStrip vx))
            (ascii "content-length") (natDecimal (enc m).length), enc m ++ rest) := by
      rw [readHeaders_headerLine _ kx vx _ [] hkx hkxne hvx hvxlast]
      rw [readHeaders_fuel _
        ((kcl ++ [58] ++ natDecimal (enc m).length ++ [13, 10]
          ++ (13 :: 10 :: (enc m ++ rest))).length + 1) _ _
        (by simp [List.length_append, List.length_cons]; omega) (by omega)]
      rw [readHeaders_headerLine _ kcl (natDecimal (enc m).length)
        (13 :: 10 :: (enc m ++ rest)) _ hkcl hkclne hDbytes (Or.inr hDlast)]
      rw [hlower, pyStrip_natDecimal]
      rw [readHeaders_fuel _ ((13 :: 10 :: (enc m ++ rest)).length + 1)
        (13 :: 10 :: (enc m ++ rest)) _
        (by simp [List.length_append, List.length_cons]; omega) (by omega)]
      exact readHeaders_blank _ _ _
    exact read_msg_of_headers dec _ (enc m) rest m hdec _ hhead (lookup_dictInsert_self _ _ _)

/-- Witness for C9: a concrete two-byte payload with identity
serialization, an extra ignored header `X-Foo: bar`, and the required header
written as `CONTENT-LENGTH`. -/
theorem framing_roundtrip_witness :
    ((some [104, 105] : Option (List Nat)) = some [104, 105])
      ∧ read_msg (fun l => some l) (lsp_frame id [104, 105] ++ [7]) = some ([104, 105], [7]) := by
  refine ⟨rfl, ?_⟩
  exact (framing_roundtrip id (fun l => some l) [104, 105] [7] rfl
    (ascii "X-Foo") (ascii "bar") (ascii "CONTENT-LENGTH")
    (by decide) (by decide) (by decide) (by decide) (by decide) (by decide)
    (by decide)).2.1

end LeanInspect
